import Mathlib

/-!
# Verification of the viewjson core (JSON/JSONL/YAML/Parquet tree viewer)

A shallow embedding of the program's core, translated from the Rust sources:

* `src/json_reader.rs`   — format detection and parsing (`parse_json_content`,
  `parse_yaml_content`, `parse_parquet_content`, `parse_text_content`);
* `src/value_formatting.rs` — `format_value_preview`, `format_value_literal`,
  `format_value_from_string`;
* `src/tree_model.rs`    — `TreeNode`, `TreeNode::from_value`,
  `build_tree_from_parse_result`;
* `src/main.rs`          — the search starting-index selection of
  `perform_search` and the prev/next navigation handlers.

The `serde_json` value type is embedded as `Json`; its numbers are embedded
as integers (`Int`).  Floating-point numbers have no faithful shallow
embedding and none of the verified claims depends on them.  The `serde_json`
text parser and serializers (`from_str`, `to_string`, `to_string_pretty`) are
embedded as executable Lean functions over `List Char` following the JSON
grammar that `serde_json` implements (with the integer-only restriction on
numbers and without surrogate-pair decoding in string escapes).
-/

/-! ## Decimal rendering of machine integers

Models Rust's `Display` for `usize`/`u64` (decimal, most significant digit
first, no leading zeros) used by `format!("[{}]", idx)` and by the number
serializer.  Written with explicit fuel so that it is structural and reduces
inside the kernel; `natDigitsAux (n+1) n` always has enough fuel. -/

def natDigitsAux : Nat → Nat → List Char
  | 0, _ => []
  | fuel+1, n =>
    if n < 10 then [Nat.digitChar n]
    else natDigitsAux fuel (n / 10) ++ [Nat.digitChar (n % 10)]

/-- Decimal digits of a natural number, models Rust `format!("{}", n)`. -/
def natRepr (n : Nat) : List Char := natDigitsAux (n+1) n

/-- Decimal rendering of an integer, models Rust `format!("{}", i)` for `i64`
and the `serde_json` number serializer restricted to integers. -/
def intRepr (i : Int) : List Char :=
  if i < 0 then '-' :: natRepr i.natAbs else natRepr i.toNat

/-! ## The value model

Embeds `serde_json::Value` with the `preserve_order` object representation
the spec's data model prescribes (an insertion-ordered association list). -/

inductive Json where
  | null : Json
  | bool (b : Bool) : Json
  | num (n : Int) : Json
  | str (s : String) : Json
  | arr (xs : List Json) : Json
  | obj (kvs : List (String × Json)) : Json

/-! ## String escaping (serde_json serializer)

`serde_json` escapes `"`, `\`, the five short control escapes, and any other
control character below 0x20 as `\u00XX` with lowercase hex; every other
character is written verbatim. -/

def escapeChar (c : Char) : List Char :=
  if c = '"' then ['\\', '"']
  else if c = '\\' then ['\\', '\\']
  else if c = '\x08' then ['\\', 'b']
  else if c = '\t' then ['\\', 't']
  else if c = '\n' then ['\\', 'n']
  else if c = '\x0c' then ['\\', 'f']
  else if c = '\r' then ['\\', 'r']
  else if c.toNat < 32 then
    ['\\', 'u', '0', '0', Nat.digitChar (c.toNat / 16), Nat.digitChar (c.toNat % 16)]
  else [c]

def escapeList : List Char → List Char
  | [] => []
  | c :: cs => escapeChar c ++ escapeList cs

/-- A JSON string literal: the escaped text between double quotes. -/
def strLit (s : String) : List Char := '"' :: escapeList s.data ++ ['"']

/-! ## Serializers

One function family covers both `serde_json::to_string` (flag `false`) and
`serde_json::to_string_pretty` (flag `true`, two-space indent, exactly the
layout of serde's `PrettyFormatter`). -/

/-- Line break plus indentation emitted by the pretty printer before an
element, a member, or a closing bracket; empty in compact mode. -/
def ppIndent (p : Bool) (ind : Nat) : List Char :=
  if p then '\n' :: List.replicate ind ' ' else []

/-- Separator between an object key and its value: `": "` pretty, `":"`
compact. -/
def colonSep (p : Bool) : List Char := if p then [':', ' '] else [':']

mutual

def Json.serVal (p : Bool) : Nat → Json → List Char
  | _, .null => ['n', 'u', 'l', 'l']
  | _, .bool true => ['t', 'r', 'u', 'e']
  | _, .bool false => ['f', 'a', 'l', 's', 'e']
  | _, .num i => intRepr i
  | _, .str s => strLit s
  | _, .arr [] => ['[', ']']
  | ind, .arr (x :: xs) =>
    '[' :: (ppIndent p (ind+2) ++ Json.serVal p (ind+2) x) ++ Json.serArrTail p ind xs
  | _, .obj [] => ['\x7b', '\x7d']
  | ind, .obj (kv :: kvs) =>
    '\x7b' :: (ppIndent p (ind+2) ++ (strLit kv.1 ++ colonSep p ++ Json.serVal p (ind+2) kv.2))
      ++ Json.serObjTail p ind kvs

def Json.serArrTail (p : Bool) : Nat → List Json → List Char
  | ind, [] => ppIndent p ind ++ [']']
  | ind, x :: xs =>
    ',' :: (ppIndent p (ind+2) ++ Json.serVal p (ind+2) x) ++ Json.serArrTail p ind xs

def Json.serObjTail (p : Bool) : Nat → List (String × Json) → List Char
  | ind, [] => ppIndent p ind ++ ['\x7d']
  | ind, kv :: kvs =>
    ',' :: (ppIndent p (ind+2) ++ (strLit kv.1 ++ colonSep p ++ Json.serVal p (ind+2) kv.2))
      ++ Json.serObjTail p ind kvs

end

/-- Models `serde_json::to_string` (compact). -/
def Json.toCompactString (v : Json) : String := String.mk (Json.serVal false 0 v)

/-- Models `serde_json::to_string_pretty` (two-space indent). -/
def Json.toPrettyString (v : Json) : String := String.mk (Json.serVal true 0 v)

/-! ## The parser (models `serde_json::from_str::<Value>`)

Recursive descent over `List Char`.  The value/members/elements functions
recurse through a fuel parameter so that everything is structural; the top
entry point supplies `2 * length + 2` fuel, which is more than the parse of
any input can consume.  Restrictions of the embedding: numbers are integers
(a fraction or exponent makes the surrounding document unparseable rather
than a float), and `\uXXXX` escapes decode a single code unit (no surrogate
pairs). -/

def isJsonWs (c : Char) : Bool :=
  c = ' ' || c = '\t' || c = '\n' || c = '\r'

def skipWs : List Char → List Char
  | [] => []
  | c :: cs => if isJsonWs c then skipWs cs else c :: cs

def hexVal (c : Char) : Option Nat :=
  if c.isDigit then some (c.toNat - 48)
  else if 'a' ≤ c ∧ c ≤ 'f' then some (c.toNat - 87)
  else if 'A' ≤ c ∧ c ≤ 'F' then some (c.toNat - 55)
  else none

def unescChar (e : Char) : Option Char :=
  if e = '"' then some '"'
  else if e = '\\' then some '\\'
  else if e = '/' then some '/'
  else if e = 'b' then some '\x08'
  else if e = 'f' then some '\x0c'
  else if e = 'n' then some '\n'
  else if e = 'r' then some '\r'
  else if e = 't' then some '\t'
  else none

/-- Parses the body of a string literal after the opening quote; returns the
unescaped characters and the input after the closing quote. -/
def parseStrBody : List Char → Option (List Char × List Char)
  | [] => none
  | '"' :: rest => some ([], rest)
  | '\\' :: 'u' :: h1 :: h2 :: h3 :: h4 :: rest =>
    match hexVal h1, hexVal h2, hexVal h3, hexVal h4 with
    | some d1, some d2, some d3, some d4 =>
      match parseStrBody rest with
      | some (body, rest') =>
        some (Char.ofNat (((d1 * 16 + d2) * 16 + d3) * 16 + d4) :: body, rest')
      | none => none
    | _, _, _, _ => none
  | '\\' :: e :: rest =>
    match unescChar e with
    | some c =>
      match parseStrBody rest with
      | some (body, rest') => some (c :: body, rest')
      | none => none
    | none => none
  | c :: rest =>
    if c.toNat < 32 then none
    else
      match parseStrBody rest with
      | some (body, rest') => some (c :: body, rest')
      | none => none

def digitsToNat (ds : List Char) : Nat :=
  ds.foldl (fun a c => a * 10 + (c.toNat - 48)) 0

/-- Parses an unsigned integer literal: a single `0`, or a nonzero digit
followed by further digits (serde rejects leading zeros; a digit after a
leading `0` is left in the rest, where every context rejects it). -/
def parseNat : List Char → Option (Nat × List Char)
  | c :: rest =>
    if c = '0' then some (0, rest)
    else if c.isDigit then
      some (digitsToNat ((c :: rest).takeWhile Char.isDigit),
        (c :: rest).dropWhile Char.isDigit)
    else none
  | [] => none

/-- Consumes an expected literal character sequence from the input. -/
def expectLit : List Char → List Char → Option (List Char)
  | [], cs => some cs
  | e :: es, c :: cs => if c = e then expectLit es cs else none
  | _ :: _, [] => none

mutual

def parseVal : Nat → List Char → Option (Json × List Char)
  | 0, _ => none
  | fuel+1, cs =>
    match skipWs cs with
    | [] => none
    | c :: rest =>
      if c = '\x7b' then
        match skipWs rest with
        | [] => none
        | c2 :: rest2 =>
          if c2 = '\x7d' then some (.obj [], rest2)
          else parseMembers fuel (c2 :: rest2) []
      else if c = '[' then
        match skipWs rest with
        | [] => none
        | c2 :: rest2 =>
          if c2 = ']' then some (.arr [], rest2)
          else parseElems fuel (c2 :: rest2) []
      else if c = '"' then
        match parseStrBody rest with
        | some (body, rest') => some (.str (String.mk body), rest')
        | none => none
      else if c = 'n' then
        match expectLit ['u', 'l', 'l'] rest with
        | some rest' => some (.null, rest')
        | none => none
      else if c = 't' then
        match expectLit ['r', 'u', 'e'] rest with
        | some rest' => some (.bool true, rest')
        | none => none
      else if c = 'f' then
        match expectLit ['a', 'l', 's', 'e'] rest with
        | some rest' => some (.bool false, rest')
        | none => none
      else if c = '-' then
        match parseNat rest with
        | some (n, rest') => some (.num (-(n : Int)), rest')
        | none => none
      else
        match parseNat (c :: rest) with
        | some (n, rest') => some (.num ((n : Int)), rest')
        | none => none

def parseElems : Nat → List Char → List Json → Option (Json × List Char)
  | 0, _, _ => none
  | fuel+1, cs, acc =>
    match parseVal fuel cs with
    | some (v, rest) =>
      match skipWs rest with
      | [] => none
      | c :: rest' =>
        if c = ',' then parseElems fuel rest' (acc ++ [v])
        else if c = ']' then some (.arr (acc ++ [v]), rest')
        else none
    | none => none

def parseMembers : Nat → List Char → List (String × Json) → Option (Json × List Char)
  | 0, _, _ => none
  | fuel+1, cs, acc =>
    match cs with
    | '"' :: rest =>
      match parseStrBody rest with
      | some (body, rest1) =>
        match skipWs rest1 with
        | [] => none
        | c2 :: rest2 =>
          if c2 = ':' then
            match parseVal fuel rest2 with
            | some (v, rest3) =>
              match skipWs rest3 with
              | [] => none
              | c4 :: rest4 =>
                if c4 = ',' then
                  parseMembers fuel (skipWs rest4) (acc ++ [(String.mk body, v)])
                else if c4 = '\x7d' then
                  some (.obj (acc ++ [(String.mk body, v)]), rest4)
                else none
            | none => none
          else none
      | none => none
    | _ => none

end

/-- Models `serde_json::from_str::<Value>` on a character list: one value,
optionally surrounded by whitespace, nothing else. -/
def jsonParseL (cs : List Char) : Option Json :=
  match parseVal (2 * cs.length + 2) cs with
  | some (v, rest) => if skipWs rest = [] then some v else none
  | none => none

/-- Models `serde_json::from_str::<Value>` on a string. -/
def jsonParse (s : String) : Option Json := jsonParseL s.data

/-! ## `src/json_reader.rs` — result and error types -/

inductive ParseResult where
  | single (v : Json) : ParseResult
  | jsonL (vs : List Json) : ParseResult

inductive ParseError where
  | invalidJson (msg : String) : ParseError
  | invalidYaml (msg : String) : ParseError
  | invalidParquet (msg : String) : ParseError
  | ioError (msg : String) : ParseError

/-! ## Rust `str::lines` and blank-line detection

`content.lines()` splits on `\n`, strips one trailing `\r` from each line,
yields nothing for the empty string, and does not yield a final empty line
when the input ends with `\n`. -/

def stripCR (l : List Char) : List Char :=
  if l.getLast? = some '\r' then l.dropLast else l

def rustLines (s : String) : List (List Char) :=
  if s.data = [] then []
  else
    (if s.data.getLast? = some '\n' then (s.data.splitOn '\n').dropLast
     else s.data.splitOn '\n').map stripCR

/-- Models `line.trim().is_empty()` (over the ASCII whitespace the model's
inputs contain; Rust trims the full Unicode White_Space set). -/
def isBlankLine (l : List Char) : Bool := l.all Char.isWhitespace

/-! ## `parse_json_content` (src/json_reader.rs lines 67-98) -/

/-- The JSONL accumulation loop of `parse_json_content`: blank lines are
skipped, each other line is parsed on its own, and the first failing line
clears the accumulator and stops (Rust's `json_values.clear(); break`). -/
def jsonlCollect : List (List Char) → List Json → List Json
  | [], acc => acc
  | l :: rest, acc =>
    if isBlankLine l then jsonlCollect rest acc
    else
      match jsonParseL l with
      | some v => jsonlCollect rest (acc ++ [v])
      | none => []

/-- The single-document fallback of `parse_json_content` (the diagnostic
string of the serde error is abstracted to a fixed message). -/
def parseSingleJson (content : String) : Except ParseError ParseResult :=
  match jsonParse content with
  | some v => .ok (.single v)
  | none => .error (.invalidJson "invalid JSON")

def parse_json_content (content : String) : Except ParseError ParseResult :=
  let lines := rustLines content
  if 1 < lines.length then
    let vs := jsonlCollect lines []
    if vs.isEmpty then parseSingleJson content else .ok (.jsonL vs)
  else parseSingleJson content

/-! ## `parse_yaml_content` (src/json_reader.rs lines 110-115)

`serde_yaml::from_str::<Value>` is an external library; the embedding models
the fragment of YAML the verified claims exercise: a flat mapping of
`key: value` lines, or a single scalar line (null/bool/integer/string), or
an empty document (null).  Anything else is a parse error.  This is a
strict under-approximation of YAML's very permissive grammar. -/

def trimChars (cs : List Char) : List Char :=
  ((cs.dropWhile Char.isWhitespace).reverse.dropWhile Char.isWhitespace).reverse

/-- Integer scalar: optional minus sign followed by digits, nothing else. -/
def yamlInt (cs : List Char) : Option Int :=
  match cs with
  | '-' :: ds => if ds ≠ [] ∧ ds.all Char.isDigit then some (-(digitsToNat ds : Int)) else none
  | ds => if ds ≠ [] ∧ ds.all Char.isDigit then some ((digitsToNat ds : Int)) else none

def yamlScalar (cs : List Char) : Json :=
  let t := trimChars cs
  if t = [] then .null
  else if t = "null".data ∨ t = ['~'] then .null
  else if t = "true".data then .bool true
  else if t = "false".data then .bool false
  else
    match yamlInt t with
    | some i => .num i
    | none => .str (String.mk t)

/-- Splits a line at its first colon. -/
def splitColon : List Char → Option (List Char × List Char)
  | [] => none
  | ':' :: rest => some ([], rest)
  | c :: rest =>
    match splitColon rest with
    | some p => some (c :: p.1, p.2)
    | none => none

/-- A `key: value` mapping line (the colon must end the line or be followed
by a space). -/
def yamlEntry (l : List Char) : Option (String × Json) :=
  match splitColon l with
  | some (k, rest) =>
    if rest = [] then some (String.mk (trimChars k), .null)
    else if rest.head? = some ' ' then some (String.mk (trimChars k), yamlScalar rest)
    else none
  | none => none

def yamlParse (content : String) : Except String Json :=
  let ls := (rustLines content).filter (fun l => ¬ isBlankLine l)
  match ls with
  | [] => .ok .null
  | [l] =>
    match yamlEntry l with
    | some kv => .ok (.obj [kv])
    | none => .ok (yamlScalar l)
  | _ =>
    match ls.mapM yamlEntry with
    | some es => .ok (.obj es)
    | none => .error "invalid YAML"

def parse_yaml_content (content : String) : Except ParseError ParseResult :=
  match yamlParse content with
  | .ok v => .ok (.single v)
  | .error e => .error (.invalidYaml e)

/-! ## `parse_text_content` (src/json_reader.rs lines 265-273) -/

def parse_text_content (content : String) : Except ParseError ParseResult :=
  match parse_json_content content with
  | .ok result => .ok result
  | .error _ => parse_yaml_content content

/-! ## `src/value_formatting.rs` -/

def format_value_preview (v : Json) : String :=
  match v with
  | .null => "null"
  | .bool b => if b then "true" else "false"
  | .num n => String.mk (intRepr n)
  | .str s =>
    if 50 < s.data.length then String.mk ('"' :: s.data.take 50 ++ ['"', '.', '.', '.'])
    else String.mk ('"' :: s.data ++ ['"'])
  | .arr xs => String.mk ("Array[".data ++ natRepr xs.length ++ [']'])
  | .obj kvs => String.mk ("Object\x7b".data ++ natRepr kvs.length ++ ['\x7d'])

def format_value_literal (v : Json) : String :=
  match v with
  | .str s => s
  | _ => v.toPrettyString

def format_value_from_string (full_value preview_fallback : String) : String :=
  if full_value.data ≠ [] then
    match jsonParse full_value with
    | some v => format_value_literal v
    | none => full_value
  else preview_fallback

/-! ## Path rendering

Modelled from the spec: the module `path_formatting` (`build_object_path`,
`build_array_path`) is imported by `tree_model.rs` and `tree_builder.rs` but
its source file is not among the provided sources.  Spec §3: "extending a
path with an object key appends `.` + key; extending a path with an array
index appends `[i]` (no separator before the bracket)". -/

def build_object_path (path key : String) : String := path ++ "." ++ key

def build_array_path (path : String) (idx : Nat) : String :=
  path ++ String.mk ('[' :: natRepr idx ++ [']'])

/-! ## `src/tree_model.rs` -/

inductive TreeNode where
  | mk (name preview path full_value display_value : String)
       (children : List TreeNode) : TreeNode

def TreeNode.name : TreeNode → String
  | .mk n _ _ _ _ _ => n

def TreeNode.preview : TreeNode → String
  | .mk _ p _ _ _ _ => p

def TreeNode.path : TreeNode → String
  | .mk _ _ p _ _ _ => p

def TreeNode.full_value : TreeNode → String
  | .mk _ _ _ f _ _ => f

def TreeNode.display_value : TreeNode → String
  | .mk _ _ _ _ d _ => d

def TreeNode.children : TreeNode → List TreeNode
  | .mk _ _ _ _ _ c => c

mutual

def TreeNode.from_value : String → String → Json → TreeNode
  | name, path, .obj kvs =>
    .mk name (format_value_preview (.obj kvs)) path (Json.toCompactString (.obj kvs))
       (format_value_literal (.obj kvs)) (TreeNode.objChildren path kvs)
  | name, path, .arr xs =>
    .mk name (format_value_preview (.arr xs)) path (Json.toCompactString (.arr xs))
       (format_value_literal (.arr xs)) (TreeNode.arrChildren path 0 xs)
  | name, path, v =>
    .mk name (format_value_preview v) path (Json.toCompactString v)
       (format_value_literal v) []

def TreeNode.objChildren : String → List (String × Json) → List TreeNode
  | _, [] => []
  | path, (key, val) :: kvs =>
    TreeNode.from_value key (build_object_path path key) val :: TreeNode.objChildren path kvs

def TreeNode.arrChildren : String → Nat → List Json → List TreeNode
  | _, _, [] => []
  | path, idx, val :: xs =>
    TreeNode.from_value (String.mk ('[' :: natRepr idx ++ [']'])) (build_array_path path idx) val
      :: TreeNode.arrChildren path (idx+1) xs

end

def TreeNode.jsonlChildren (root_path : String) : Nat → List Json → List TreeNode
  | _, [] => []
  | idx, v :: vs =>
    TreeNode.from_value ("Line " ++ String.mk (natRepr (idx+1))) (build_array_path root_path idx) v
      :: TreeNode.jsonlChildren root_path (idx+1) vs

def build_tree_from_jsonl (values : List Json) (display_name : String) : TreeNode :=
  let jsonl_name := display_name ++ " (JSONL)"
  let root_path := display_name
  let root_value : Json := .obj [("lines", .num values.length)]
  .mk jsonl_name (String.mk (natRepr values.length) ++ " objects") root_path
     (Json.toCompactString root_value) (format_value_literal root_value)
     (TreeNode.jsonlChildren root_path 0 values)

def build_tree_from_parse_result (result : ParseResult) (display_name : String) : TreeNode :=
  match result with
  | .single value => TreeNode.from_value display_name "$" value
  | .jsonL values => build_tree_from_jsonl values display_name

/-! ## `src/main.rs` — search match state

A GTK `TreePath` is a sequence of `i32` child indices; `depth()` is its
length and `indices()` the sequence itself. -/

structure SearchMatch where
  path : List Int
  is_key_match : Bool

/-- Rust `Vec<i32>` ordering (`current_indices <= match_indices`):
lexicographic, element by element, a strict prefix comparing as smaller. -/
def lexLeInt : List Int → List Int → Bool
  | [], _ => true
  | _ :: _, [] => false
  | x :: xs, y :: ys => if x < y then true else if y < x then false else lexLeInt xs ys

/-- The predicate of `perform_search` (src/main.rs lines 637-650): a match
qualifies when the current path is `≤` it, comparing depth first and, at
equal depth, the index sequences lexicographically. -/
def matchAtOrAfter (currentPath : List Int) (m : SearchMatch) : Bool :=
  if currentPath.length < m.path.length then true
  else if m.path.length < currentPath.length then false
  else lexLeInt currentPath m.path

/-- The starting-index selection of `perform_search` (src/main.rs lines
624-657), applied to the recomputed match list: `.position(..).or(Some(0))`
when a current selection exists, `Some(0)` otherwise, `None` when the list
is empty. -/
def perform_search_starting_index (search_matches : List SearchMatch)
    (current_selection : Option (List Int)) : Option Nat :=
  if search_matches.isEmpty then none
  else
    match current_selection with
    | some currentPath =>
      match search_matches.findIdx? (fun m => matchAtOrAfter currentPath m) with
      | some i => some i
      | none => some 0
    | none => some 0

/-! ## `src/main.rs` — prev/next navigation handlers -/

structure SearchState where
  search_matches : List SearchMatch
  current_index : Option Nat

/-- The `next_button.connect_clicked` handler (src/main.rs lines 1031-1056):
no-op on an empty match list, otherwise advance with wraparound. -/
def next_clicked (s : SearchState) : SearchState :=
  if s.search_matches.isEmpty then s
  else
    match s.current_index with
    | some idx =>
      { s with current_index := some (if idx = s.search_matches.length - 1 then 0 else idx + 1) }
    | none => s

/-- The `prev_button.connect_clicked` handler (src/main.rs lines 983-1008):
no-op on an empty match list, otherwise retreat with wraparound. -/
def prev_clicked (s : SearchState) : SearchState :=
  if s.search_matches.isEmpty then s
  else
    match s.current_index with
    | some idx =>
      { s with current_index := some (if idx = 0 then s.search_matches.length - 1 else idx - 1) }
    | none => s

/-! ## `parse_parquet_content` (src/json_reader.rs lines 129-202)

The Arrow/Parquet container decoding is an external library; the embedding
models its output (a sequence of record batches, each a schema-ordered list
of named columns with per-row cells) and translates the row/column
conversion loop of the source.  A column of unsupported type carries the
text `format!("{:?}", column)` would produce — a debug rendering of the
whole column, independent of the row index — plus its per-row null mask.
`f2j` stands for `serde_json::Number::from_f64(..).unwrap_or(0)` applied to
an `f64` cell (represented by its bit pattern); no verified claim depends
on its value. -/

inductive ArrowColumn where
  | utf8 (cells : List (Option String)) : ArrowColumn
  | int64 (cells : List (Option Int)) : ArrowColumn
  | float64 (cells : List (Option Nat)) : ArrowColumn
  | boolean (cells : List (Option Bool)) : ArrowColumn
  | other (nulls : List Bool) (debugRepr : String) : ArrowColumn

structure RecordBatch where
  numRows : Nat
  fields : List (String × ArrowColumn)

/-- Models `column.is_null(row_idx)`. -/
def columnIsNull : ArrowColumn → Nat → Bool
  | .utf8 cells, r => (cells.getD r none).isNone
  | .int64 cells, r => (cells.getD r none).isNone
  | .float64 cells, r => (cells.getD r none).isNone
  | .boolean cells, r => (cells.getD r none).isNone
  | .other nulls _, r => nulls.getD r false

/-- Models the non-null arm of the `match column.data_type()` dispatch; the
`_` arm is `Value::String(format!("{:?}", column))`. -/
def columnValue (f2j : Nat → Json) : ArrowColumn → Nat → Json
  | .utf8 cells, r => .str ((cells.getD r none).getD "")
  | .int64 cells, r => .num ((cells.getD r none).getD 0)
  | .float64 cells, r => f2j ((cells.getD r none).getD 0)
  | .boolean cells, r => .bool ((cells.getD r none).getD false)
  | .other _ debugRepr, _ => .str debugRepr

/-- One cell of the row object: `Null` for a null cell, the converted value
otherwise. -/
def parquetCell (f2j : Nat → Json) (col : ArrowColumn) (r : Nat) : Json :=
  if columnIsNull col r then .null else columnValue f2j col r

/-- One row of a batch: a key-ordered object over the schema's field names. -/
def parquetRow (f2j : Nat → Json) (b : RecordBatch) (r : Nat) : Json :=
  .obj (b.fields.map (fun f => (f.1, parquetCell f2j f.2 r)))

/-- The conversion loop of `parse_parquet_content` over already-decoded
batches (container/batch decode failures happen before this loop and are
outside the model). -/
def parse_parquet_content (f2j : Nat → Json) (batches : List RecordBatch) :
    Except ParseError ParseResult :=
  .ok (.single (.arr ((batches.map
    (fun b => (List.range b.numRows).map (parquetRow f2j b))).flatten)))

/-! ## Proof infrastructure: tree path enumeration, key conditions, sizes

These definitions are measures and observations used by the theorems; they
translate no Rust code. -/

mutual

/-- All `path` strings of a tree, root first, children in stored order. -/
def TreeNode.allPaths : TreeNode → List String
  | .mk _ _ p _ _ cs => p :: TreeNode.allPathsList cs

def TreeNode.allPathsList : List TreeNode → List String
  | [] => []
  | t :: ts => TreeNode.allPaths t ++ TreeNode.allPathsList ts

end

/-- The key avoids the two path-delimiter characters `.` and `[`. -/
def keyOkB (k : String) : Bool := k.data.all (fun c => !(c = '.' || c = '['))

/-- No string occurs twice. -/
def nodupKeys : List String → Bool
  | [] => true
  | k :: ks => (!ks.contains k) && nodupKeys ks

mutual

/-- Every object anywhere in the value has pairwise-distinct keys, none of
which contains `.` or `[`. -/
def Json.keysOk : Json → Bool
  | .null => true
  | .bool _ => true
  | .num _ => true
  | .str _ => true
  | .arr xs => Json.keysOkList xs
  | .obj kvs => nodupKeys (kvs.map Prod.fst) && Json.keysOkKVs kvs

def Json.keysOkList : List Json → Bool
  | [] => true
  | x :: xs => Json.keysOk x && Json.keysOkList xs

def Json.keysOkKVs : List (String × Json) → Bool
  | [] => true
  | kv :: kvs => keyOkB kv.1 && Json.keysOk kv.2 && Json.keysOkKVs kvs

end

def ParseResult.keysOk : ParseResult → Bool
  | .single v => v.keysOk
  | .jsonL vs => Json.keysOkList vs

/-- A tail that can follow a rendered path segment: empty, or opening the
next segment with `.` or `[`. -/
def extOk : List Char → Prop
  | [] => True
  | c :: _ => c = '.' ∨ c = '['

/-- Shape of a proper descendant's path below a node with path `pd` and
value `v`: the parent's path, one segment of a direct child of `v`, and a
tail that is empty or opens a further segment. -/
def childExt (v : Json) (pd qd : List Char) : Prop :=
  match v with
  | .obj kvs => ∃ k val e, (k, val) ∈ kvs ∧ qd = pd ++ '.' :: k.data ++ e ∧ extOk e
  | .arr xs => ∃ i e, i < xs.length ∧ qd = pd ++ '[' :: (natRepr i ++ ']' :: e) ∧ extOk e
  | _ => False

mutual

/-- Node-plus-entry count of a value; a lower bound for the serialized
length and an upper bound for the parser fuel a round trip needs. -/
def Json.jsize : Json → Nat
  | .null => 1
  | .bool _ => 1
  | .num _ => 1
  | .str _ => 1
  | .arr xs => 1 + Json.jsizeList xs
  | .obj kvs => 1 + Json.jsizeKVs kvs

def Json.jsizeList : List Json → Nat
  | [] => 0
  | x :: xs => 1 + Json.jsize x + Json.jsizeList xs

def Json.jsizeKVs : List (String × Json) → Nat
  | [] => 0
  | kv :: kvs => 1 + Json.jsize kv.2 + Json.jsizeKVs kvs

end

/-! # Theorems -/

/-! ## Decimal rendering: basic properties -/

theorem natDigitsAux_fuel {n f g : Nat} (hf : n < f) (hg : n < g) :
    natDigitsAux f n = natDigitsAux g n := by
  induction n using Nat.strong_induction_on generalizing f g with
  | _ n ih =>
    match f, g, hf, hg with
    | f+1, g+1, hf, hg =>
      simp only [natDigitsAux]
      by_cases h10 : n < 10
      · simp [h10]
      · have hd : n / 10 < n := Nat.div_lt_self (by omega) (by omega)
        simp only [if_neg h10]
        have hrw := @ih (n / 10) hd f g (by omega) (by omega)
        rw [hrw]

theorem natRepr_eq (n : Nat) :
    natRepr n =
      if n < 10 then [Nat.digitChar n] else natRepr (n / 10) ++ [Nat.digitChar (n % 10)] := by
  show natDigitsAux (n+1) n = _
  simp only [natDigitsAux]
  by_cases h : n < 10
  · simp [h]
  · have hd : n / 10 < n := Nat.div_lt_self (by omega) (by omega)
    simp only [if_neg h]
    congr 1
    exact natDigitsAux_fuel hd (by omega)

theorem natRepr_ne_nil (n : Nat) : natRepr n ≠ [] := by
  rw [natRepr_eq]
  split <;> simp

theorem digitChar_isDigit {k : Nat} (hk : k < 10) : (Nat.digitChar k).isDigit = true := by
  interval_cases k <;> decide

theorem digitChar_inj10 {a b : Nat} (ha : a < 10) (hb : b < 10)
    (h : Nat.digitChar a = Nat.digitChar b) : a = b := by
  revert h
  interval_cases a <;> interval_cases b <;> decide

theorem natRepr_digits {n : Nat} : ∀ c ∈ natRepr n, c.isDigit = true := by
  induction n using Nat.strong_induction_on with
  | _ n ih =>
    rw [natRepr_eq]
    by_cases h : n < 10
    · simp only [if_pos h, List.mem_singleton]
      rintro c rfl
      exact digitChar_isDigit h
    · have hd : n / 10 < n := Nat.div_lt_self (by omega) (by omega)
      simp only [if_neg h, List.mem_append, List.mem_singleton]
      rintro c (hc | rfl)
      · exact ih (n / 10) hd c hc
      · exact digitChar_isDigit (Nat.mod_lt _ (by omega))

theorem natRepr_inj : ∀ {m n : Nat}, natRepr m = natRepr n → m = n := by
  intro m
  induction m using Nat.strong_induction_on with
  | _ m ih =>
    intro n h
    rw [natRepr_eq m, natRepr_eq n] at h
    by_cases hm : m < 10 <;> by_cases hn : n < 10
    · simp only [if_pos hm, if_pos hn, List.cons.injEq, and_true] at h
      exact digitChar_inj10 hm hn h
    · simp only [if_pos hm, if_neg hn] at h
      have := natRepr_ne_nil (n / 10)
      have hlen := congrArg List.length h
      simp [List.length_append] at hlen
      cases hcn : natRepr (n / 10) with
      | nil => exact absurd hcn this
      | cons a l => rw [hcn] at hlen; simp at hlen
    · simp only [if_neg hm, if_pos hn] at h
      have := natRepr_ne_nil (m / 10)
      have hlen := congrArg List.length h
      simp [List.length_append] at hlen
      cases hcm : natRepr (m / 10) with
      | nil => exact absurd hcm this
      | cons a l => rw [hcm] at hlen; simp at hlen
    · simp only [if_neg hm, if_neg hn] at h
      obtain ⟨h1, h2⟩ := List.append_inj' h (by simp)
      have e1 : m / 10 = n / 10 :=
        ih (m / 10) (Nat.div_lt_self (by omega) (by omega)) h1
      have e2 : m % 10 = n % 10 := by
        have := List.cons.injEq (Nat.digitChar (m % 10)) [] (Nat.digitChar (n % 10)) []
        rw [this] at h2
        exact digitChar_inj10 (Nat.mod_lt _ (by omega)) (Nat.mod_lt _ (by omega)) h2.1
      omega

/-! ## Delimited-segment cancellation -/

theorem digits_append_cancel {c : Char} (hc : c.isDigit = false) :
    ∀ {a b e1 e2 : List Char}, (∀ x ∈ a, x.isDigit = true) → (∀ x ∈ b, x.isDigit = true) →
      a ++ c :: e1 = b ++ c :: e2 → a = b ∧ e1 = e2 := by
  intro a
  induction a with
  | nil =>
    intro b e1 e2 _ hb h
    cases b with
    | nil => simpa using h
    | cons d b' =>
      exfalso
      simp only [List.nil_append, List.cons_append, List.cons.injEq] at h
      have : d.isDigit = true := hb d (by simp)
      rw [← h.1] at this
      rw [hc] at this
      exact Bool.noConfusion this
  | cons d a' iha =>
    intro b e1 e2 ha hb h
    cases b with
    | nil =>
      exfalso
      simp only [List.cons_append, List.nil_append, List.cons.injEq] at h
      have : d.isDigit = true := ha d (by simp)
      rw [h.1, hc] at this
      exact Bool.noConfusion this
    | cons d' b' =>
      simp only [List.cons_append, List.cons.injEq] at h
      obtain ⟨rfl, h2⟩ := h
      have := iha (fun x hx => ha x (by simp [hx])) (fun x hx => hb x (by simp [hx])) h2
      exact ⟨by rw [this.1], this.2⟩

theorem nokey_append_cancel :
    ∀ {a b e1 e2 : List Char}, (∀ x ∈ a, ¬(x = '.' ∨ x = '[')) →
      (∀ x ∈ b, ¬(x = '.' ∨ x = '[')) → extOk e1 → extOk e2 →
      a ++ e1 = b ++ e2 → a = b := by
  intro a
  induction a with
  | nil =>
    intro b e1 e2 _ hb he1 _ h
    cases b with
    | nil => rfl
    | cons d b' =>
      exfalso
      simp only [List.nil_append, List.cons_append] at h
      cases e1 with
      | nil => exact List.noConfusion h
      | cons c0 r0 =>
        have hco : c0 = '.' ∨ c0 = '[' := he1
        have hd : ¬(d = '.' ∨ d = '[') := hb d (by simp)
        simp only [List.cons.injEq] at h
        rw [h.1] at hco
        exact hd hco
  | cons d a' iha =>
    intro b e1 e2 ha hb he1 he2 h
    cases b with
    | nil =>
      exfalso
      simp only [List.cons_append, List.nil_append] at h
      cases e2 with
      | nil => exact List.noConfusion h.symm
      | cons c0 r0 =>
        have hco : c0 = '.' ∨ c0 = '[' := he2
        have hd : ¬(d = '.' ∨ d = '[') := ha d (by simp)
        simp only [List.cons.injEq] at h
        rw [← h.1] at hco
        exact hd hco
    | cons d' b' =>
      simp only [List.cons_append, List.cons.injEq] at h
      obtain ⟨rfl, h2⟩ := h
      rw [iha (fun x hx => ha x (by simp [hx])) (fun x hx => hb x (by simp [hx])) he1 he2 h2]

/-! ## Claim C3 -/

/-- C3: `format_value_preview` on `String(s)` is `s` double-quoted when `s`
has at most 50 Unicode scalar values; when longer it is the first 50 scalar
values double-quoted with the trailing ellipsis marker (quote and ellipsis
not counted toward the 50, total length 55); the preview of a 51-character
string ends in the closing quote followed by `...`, and the preview of a
50-character string does not end in `...`. -/
theorem c3_preview_string_truncation (s : String) :
    (s.data.length ≤ 50 → format_value_preview (.str s) = "\"" ++ s ++ "\"") ∧
    (50 < s.data.length →
      format_value_preview (.str s) = "\"" ++ String.mk (s.data.take 50) ++ "\"" ++ "..." ∧
      (format_value_preview (.str s)).data.length = 55) ∧
    (s.data.length = 51 → ['"', '.', '.', '.'] <:+ (format_value_preview (.str s)).data) ∧
    (s.data.length = 50 → ¬(['.', '.', '.'] <:+ (format_value_preview (.str s)).data)) := by
  have heq : format_value_preview (.str s) =
      if 50 < s.data.length then String.mk ('"' :: s.data.take 50 ++ ['"', '.', '.', '.'])
      else String.mk ('"' :: s.data ++ ['"']) := rfl
  refine ⟨?_, ?_, ?_, ?_⟩
  · intro h
    apply String.ext
    rw [heq, if_neg (by omega : ¬ 50 < s.data.length)]
    simp [String.data_append]
  · intro h
    constructor
    · apply String.ext
      rw [heq, if_pos h]
      simp [String.data_append]
    · rw [heq, if_pos h]
      have ht : (s.data.take 50).length = 50 := by
        rw [List.length_take]
        omega
      simp [ht]
  · intro h
    rw [heq, if_pos (by omega : 50 < s.data.length)]
    exact ⟨'"' :: s.data.take 50, by simp⟩
  · intro h
    rintro ⟨pre, hp⟩
    rw [heq, if_neg (by omega : ¬ 50 < s.data.length)] at hp
    have h1 : (pre ++ ['.', '.', '.']).getLast? = some '.' := by
      rw [List.getLast?_append_of_ne_nil pre (by simp)]
      rfl
    rw [hp] at h1
    rw [List.getLast?_append_of_ne_nil _ (by simp)] at h1
    simp at h1

theorem c3_preview_string_truncation_witness :
    format_value_preview (.str (String.mk (List.replicate 51 'a'))) =
      "\"" ++ String.mk (List.replicate 50 'a') ++ "\"" ++ "..." ∧
    ['"', '.', '.', '.'] <:+
      (format_value_preview (.str (String.mk (List.replicate 51 'a')))).data ∧
    ¬(['.', '.', '.'] <:+
      (format_value_preview (.str (String.mk (List.replicate 50 'a')))).data) := by
  refine ⟨?_, ?_, ?_⟩
  · exact (((c3_preview_string_truncation (String.mk (List.replicate 51 'a'))).2.1
      (by decide)).1).trans (by decide)
  · exact (c3_preview_string_truncation (String.mk (List.replicate 51 'a'))).2.2.1 (by decide)
  · exact (c3_preview_string_truncation (String.mk (List.replicate 50 'a'))).2.2.2 (by decide)

/-! ## Claim C7 -/

/-- C7: with a non-empty match list of length `n` and current index `i`,
"next" sets the index to 0 when `i = n - 1` and to `i + 1` otherwise,
"previous" sets it to `n - 1` when `i = 0` and to `i - 1` otherwise, and
neither touches the match list; with an empty match list both handlers
leave the whole search state unchanged. -/
theorem c7_navigation_wraparound (s : SearchState) :
    (∀ i, 0 < s.search_matches.length → s.current_index = some i →
      (next_clicked s).search_matches = s.search_matches ∧
      (prev_clicked s).search_matches = s.search_matches ∧
      (next_clicked s).current_index =
        some (if i = s.search_matches.length - 1 then 0 else i + 1) ∧
      (prev_clicked s).current_index =
        some (if i = 0 then s.search_matches.length - 1 else i - 1)) ∧
    (s.search_matches = [] → next_clicked s = s ∧ prev_clicked s = s) := by
  constructor
  · intro i hlen hidx
    have hne : s.search_matches.isEmpty = false := by
      cases hm : s.search_matches with
      | nil => rw [hm] at hlen; simp at hlen
      | cons a l => simp
    refine ⟨?_, ?_, ?_, ?_⟩ <;> simp [next_clicked, prev_clicked, hne, hidx]
  · intro hm
    constructor <;> simp [next_clicked, prev_clicked, hm]

theorem c7_navigation_wraparound_witness :
    (next_clicked ⟨[⟨[0], false⟩, ⟨[1], false⟩, ⟨[2], false⟩], some 2⟩).current_index =
      some 0 ∧
    (prev_clicked ⟨[⟨[0], false⟩, ⟨[1], false⟩, ⟨[2], false⟩], some 0⟩).current_index =
      some 2 := by
  constructor
  · exact (((c7_navigation_wraparound
      ⟨[⟨[0], false⟩, ⟨[1], false⟩, ⟨[2], false⟩], some 2⟩).1 2
        (by simp) rfl).2.2.1).trans (by simp)
  · exact (((c7_navigation_wraparound
      ⟨[⟨[0], false⟩, ⟨[1], false⟩, ⟨[2], false⟩], some 0⟩).1 0
        (by simp) rfl).2.2.2).trans (by simp)

/-! ## Claim C8 -/

theorem from_value_name (n p : String) (v : Json) : (TreeNode.from_value n p v).name = n := by
  cases v <;> simp [TreeNode.from_value, TreeNode.name]

theorem objChildren_names (p : String) (kvs : List (String × Json)) :
    (TreeNode.objChildren p kvs).map TreeNode.name = kvs.map Prod.fst := by
  induction kvs with
  | nil => rfl
  | cons kv kvs ih =>
    cases kv
    simp [TreeNode.objChildren, from_value_name, ih]

/-- C8: the children of every object node are produced in the stored key
order of the object (the insertion-ordered map), and the parser inserts
keys in the order they are first parsed — no step sorts them (witnessed by
a document whose keys are in reverse alphabetical order). -/
theorem c8_object_key_order :
    (∀ name path kvs,
      (TreeNode.from_value name path (.obj kvs)).children.map TreeNode.name =
        kvs.map Prod.fst) ∧
    parse_json_content "\x7b\"b\":1,\"a\":0\x7d" =
      .ok (.single (.obj [("b", .num 1), ("a", .num 0)])) := by
  constructor
  · intro name path kvs
    have h : (TreeNode.from_value name path (.obj kvs)).children =
        TreeNode.objChildren path kvs := by
      simp [TreeNode.from_value, TreeNode.children]
    rw [h]
    exact objChildren_names path kvs
  · rfl

/-! ## Claim C10 -/

/-- C10: `parse_parquet_content` does not fail on a column of unsupported
type; every non-null cell of such a column becomes the string holding the
debug rendering of the entire column, so any two non-null cells of that
column receive the identical string, and each row object carries that
entry. -/
theorem c10_parquet_unsupported_column (f2j : Nat → Json) (batches : List RecordBatch) :
    (∃ rows, parse_parquet_content f2j batches = .ok (.single (.arr rows))) ∧
    (∀ b ∈ batches, ∀ r1 r2 : Nat, ∀ name nulls dbg,
      (name, ArrowColumn.other nulls dbg) ∈ b.fields →
      nulls.getD r1 false = false → nulls.getD r2 false = false →
      parquetCell f2j (ArrowColumn.other nulls dbg) r1 = .str dbg ∧
      parquetCell f2j (ArrowColumn.other nulls dbg) r1 =
        parquetCell f2j (ArrowColumn.other nulls dbg) r2 ∧
      ∃ entries, parquetRow f2j b r1 = .obj entries ∧ (name, Json.str dbg) ∈ entries) := by
  constructor
  · exact ⟨_, rfl⟩
  · intro b _ r1 r2 name nulls dbg hf h1 h2
    simp only [List.getD, List.get?_eq_getElem?] at h1 h2
    refine ⟨?_, ?_, ?_⟩
    · simp [parquetCell, columnIsNull, List.getD, List.get?_eq_getElem?, h1, columnValue]
    · simp [parquetCell, columnIsNull, List.getD, List.get?_eq_getElem?, h1, h2, columnValue]
    · refine ⟨_, rfl, ?_⟩
      have hmem : (name, Json.str dbg) =
          (fun f : String × ArrowColumn => (f.1, parquetCell f2j f.2 r1))
            (name, ArrowColumn.other nulls dbg) := by
        simp [parquetCell, columnIsNull, List.getD, List.get?_eq_getElem?, h1, columnValue]
      rw [hmem]
      exact List.mem_map_of_mem _ hf

theorem c10_parquet_unsupported_column_witness :
    parquetCell (fun _ => Json.null) (ArrowColumn.other [false, false] "D") 0 =
      .str "D" ∧
    parquetCell (fun _ => Json.null) (ArrowColumn.other [false, false] "D") 0 =
      parquetCell (fun _ => Json.null) (ArrowColumn.other [false, false] "D") 1 := by
  have h := (c10_parquet_unsupported_column (fun _ => Json.null)
    [⟨2, [("c", ArrowColumn.other [false, false] "D")]⟩]).2
    ⟨2, [("c", ArrowColumn.other [false, false] "D")]⟩ (by simp) 0 1 "c" [false, false] "D"
    (by simp) (by rfl) (by rfl)
  exact ⟨h.1, h.2.1⟩

/-! ## Claim C5 -/

theorem lexLeInt_iff : ∀ xs ys : List Int,
    lexLeInt xs ys = true ↔ (xs = ys ∨ List.Lex (· < ·) xs ys) := by
  intro xs
  induction xs with
  | nil =>
    intro ys
    cases ys with
    | nil => simp [lexLeInt]
    | cons y ys =>
      constructor
      · intro _
        exact Or.inr List.Lex.nil
      · intro _
        rfl
  | cons x xs ih =>
    intro ys
    cases ys with
    | nil =>
      constructor
      · intro h
        exact absurd h (by simp [lexLeInt])
      · rintro (h | h)
        · exact absurd h (by simp)
        · cases h
    | cons y ys =>
      simp only [lexLeInt]
      by_cases h1 : x < y
      · simp only [if_pos h1]
        constructor
        · intro _
          exact Or.inr (List.Lex.rel h1)
        · intro _
          trivial
      · by_cases h2 : y < x
        · simp only [if_neg h1, if_pos h2]
          constructor
        
          · intro h
            exact absurd h (by simp)
          · rintro (heq | hlex)
            · rw [List.cons.injEq] at heq
              omega
            · cases hlex with
              | rel h => omega
              | cons h => omega
        · have hxy : x = y := by omega
          subst hxy
          simp only [if_neg h1, if_neg h2]
          rw [ih ys]
          constructor
          · rintro (rfl | hlex)
            · exact Or.inl rfl
            · exact Or.inr (List.Lex.cons hlex)
          · rintro (heq | hlex)
            · rw [List.cons.injEq] at heq
              exact Or.inl heq.2
            · cases hlex with
              | rel h => omega
              | cons h => exact Or.inr h

/-- C5: re-running a search with a non-empty recomputed match list and a
current selection path picks the position of the first match whose path is
greater than or equal to the current path in the depth-first/then-indices
lexicographic order (characterized independently in the first conjunct); it
falls back to 0 when no match qualifies, starts at 0 without a current
path, and clears the index when the list is empty. -/
theorem c5_search_starting_index (ms : List SearchMatch) (cp : List Int) :
    (∀ m : SearchMatch, matchAtOrAfter cp m = true ↔
      (cp.length < m.path.length ∨
        (cp.length = m.path.length ∧ (cp = m.path ∨ List.Lex (· < ·) cp m.path)))) ∧
    (ms ≠ [] →
      ∃ i, perform_search_starting_index ms (some cp) = some i ∧
        ((i < ms.length ∧ matchAtOrAfter cp (ms.getD i ⟨[], false⟩) = true ∧
            ∀ j < i, matchAtOrAfter cp (ms.getD j ⟨[], false⟩) = false) ∨
          (i = 0 ∧ ∀ j < ms.length, matchAtOrAfter cp (ms.getD j ⟨[], false⟩) = false))) ∧
    (ms ≠ [] → perform_search_starting_index ms none = some 0) ∧
    perform_search_starting_index [] (some cp) = none ∧
    perform_search_starting_index [] none = none := by
  refine ⟨?_, ?_, ?_, rfl, rfl⟩
  · intro m
    unfold matchAtOrAfter
    by_cases h1 : cp.length < m.path.length
    · simp only [if_pos h1]
      constructor
      · intro _
        exact Or.inl h1
      · intro _
        trivial
    · by_cases h2 : m.path.length < cp.length
      · simp only [if_neg h1, if_pos h2]
        constructor
        · intro h
          exact absurd h (by simp)
        · rintro (h | ⟨h, -⟩) <;> omega
      · have heq : cp.length = m.path.length := by omega
        simp only [if_neg h1, if_neg h2]
        rw [lexLeInt_iff]
        constructor
        · rintro (rfl | hlex)
          · exact Or.inr ⟨rfl, Or.inl rfl⟩
          · exact Or.inr ⟨heq, Or.inr hlex⟩
        · rintro (h | ⟨-, h⟩)
          · omega
          · exact h
  · intro hne
    have hnE : ¬(ms.isEmpty = true) := by
      cases ms with
      | nil => exact absurd rfl hne
      | cons a l => simp
    have hmain : perform_search_starting_index ms (some cp) =
        (match ms.findIdx? (fun m => matchAtOrAfter cp m) with
          | some i => some i
          | none => some 0) := by
      unfold perform_search_starting_index
      rw [if_neg hnE]
    cases hf : ms.findIdx? (fun m => matchAtOrAfter cp m) with
    | some i =>
      obtain ⟨hlt, hidx⟩ := List.findIdx?_eq_some_iff_findIdx_eq.mp hf
      subst hidx
      refine ⟨ms.findIdx (fun m => matchAtOrAfter cp m), by rw [hmain, hf], Or.inl ⟨hlt, ?_, ?_⟩⟩
      · rw [List.getD_eq_getElem _ _ hlt]
        exact List.findIdx_getElem
      · intro j hj
        have hjlt : j < ms.length := by omega
        rw [List.getD_eq_getElem _ _ hjlt]
        exact List.not_of_lt_findIdx hj
    | none =>
      refine ⟨0, by rw [hmain, hf], Or.inr ⟨rfl, ?_⟩⟩
      intro j hj
      rw [List.getD_eq_getElem _ _ hj]
      exact List.findIdx?_eq_none_iff.mp hf _ (List.getElem_mem hj)
  · intro hne
    have hnE : ¬(ms.isEmpty = true) := by
      cases ms with
      | nil => exact absurd rfl hne
      | cons a l => simp
    unfold perform_search_starting_index
    rw [if_neg hnE]

theorem c5_search_starting_index_witness :
    ∃ i, perform_search_starting_index [⟨[0], false⟩, ⟨[2], false⟩] (some [1]) = some i ∧
      ((i < 2 ∧ matchAtOrAfter [1] ([⟨[0], false⟩, ⟨[2], false⟩].getD i ⟨[], false⟩) = true ∧
          ∀ j < i, matchAtOrAfter [1] ([⟨[0], false⟩, ⟨[2], false⟩].getD j ⟨[], false⟩) = false) ∨
        (i = 0 ∧ ∀ j < 2,
          matchAtOrAfter [1] ([⟨[0], false⟩, ⟨[2], false⟩].getD j ⟨[], false⟩) = false)) :=
  (c5_search_starting_index [⟨[0], false⟩, ⟨[2], false⟩] [1]).2.1 (by simp)

/-! ## Claim C1 -/

theorem jsonlCollect_success :
    ∀ (lines : List (List Char)) (acc : List Json),
      (∀ l ∈ lines, isBlankLine l = false → (jsonParseL l).isSome) →
      jsonlCollect lines acc =
        acc ++ (lines.filter (fun l => !isBlankLine l)).filterMap jsonParseL := by
  intro lines
  induction lines with
  | nil =>
    intro acc _
    simp [jsonlCollect]
  | cons l rest ih =>
    intro acc h
    by_cases hb : isBlankLine l
    · rw [jsonlCollect, if_pos hb, ih acc (fun x hx => h x (by simp [hx]))]
      simp [List.filter_cons, hb]
    · have hbf : isBlankLine l = false := by simpa using hb
      have hs := h l (by simp) hbf
      obtain ⟨v, hv⟩ := Option.isSome_iff_exists.mp hs
      rw [jsonlCollect, if_neg hb, hv]
      show jsonlCollect rest (acc ++ [v]) = _
      rw [ih (acc ++ [v]) (fun x hx => h x (by simp [hx]))]
      simp [List.filter_cons, hbf, List.filterMap_cons, hv]

theorem jsonlCollect_failure :
    ∀ (lines : List (List Char)) (acc : List Json) (l : List Char), l ∈ lines →
      isBlankLine l = false → jsonParseL l = none → jsonlCollect lines acc = [] := by
  intro lines
  induction lines with
  | nil =>
    intro acc l hmem
    simp at hmem
  | cons l0 rest ih =>
    intro acc l hmem hbl hnone
    by_cases hb0 : isBlankLine l0
    · rw [jsonlCollect, if_pos hb0]
      rcases List.mem_cons.mp hmem with rfl | hmem'
      · rw [hbl] at hb0
        exact Bool.noConfusion hb0
      · exact ih acc l hmem' hbl hnone
    · cases hp : jsonParseL l0 with
      | none => rw [jsonlCollect, if_neg hb0, hp]
      | some v =>
        rw [jsonlCollect, if_neg hb0, hp]
        show jsonlCollect rest (acc ++ [v]) = []
        rcases List.mem_cons.mp hmem with rfl | hmem'
        · rw [hnone] at hp
          exact Option.noConfusion hp
        · exact ih (acc ++ [v]) l hmem' hbl hnone

theorem filterMap_length_all_isSome {α β : Type} (f : α → Option β) :
    ∀ l : List α, (∀ x ∈ l, (f x).isSome) → (l.filterMap f).length = l.length := by
  intro l
  induction l with
  | nil => simp
  | cons x xs ih =>
    intro h
    obtain ⟨v, hv⟩ := Option.isSome_iff_exists.mp (h x (by simp))
    rw [List.filterMap_cons, hv]
    simp only [List.length_cons]
    rw [ih (fun y hy => h y (by simp [hy]))]

theorem parse_json_content_otherwise (content : String)
    (h : 1 < (rustLines content).length)
    (hncond : ¬((∀ l ∈ (rustLines content).filter (fun l => !isBlankLine l),
        (jsonParseL l).isSome) ∧
      (rustLines content).filter (fun l => !isBlankLine l) ≠ [])) :
    parse_json_content content = parseSingleJson content := by
  have hcol : jsonlCollect (rustLines content) [] = [] := by
    rw [not_and_or] at hncond
    rcases hncond with hna | hnil
    · push_neg at hna
      obtain ⟨l, hl, hns⟩ := hna
      have hlm := List.mem_filter.mp hl
      have hbl : isBlankLine l = false := by
        have := hlm.2
        simp at this
        exact this
      exact jsonlCollect_failure _ [] l hlm.1 hbl (Option.not_isSome_iff_eq_none.mp hns)
    · rw [not_not] at hnil
      rw [jsonlCollect_success _ [] ?hall]
      · rw [hnil]
        simp
      case hall =>
        intro l hl hbl
        exfalso
        have : l ∈ (rustLines content).filter (fun l => !isBlankLine l) :=
          List.mem_filter.mpr ⟨hl, by simp [hbl]⟩
        rw [hnil] at this
        simp at this
  simp only [parse_json_content, if_pos h, hcol]
  simp

/-- C1: for an input with more than one line, `parse_json_content` returns
`JsonL` of the per-line values in line order exactly when every non-blank
line parses on its own as a standalone value and at least one value
results; in every other case it parses the entire input as one value,
yielding `Single` on success and `InvalidJson` on failure. -/
theorem c1_jsonl_detection (content : String)
    (h : 1 < (rustLines content).length) :
    ((∀ l ∈ (rustLines content).filter (fun l => !isBlankLine l), (jsonParseL l).isSome) ∧
        (rustLines content).filter (fun l => !isBlankLine l) ≠ [] →
      parse_json_content content =
        .ok (.jsonL
          (((rustLines content).filter (fun l => !isBlankLine l)).filterMap jsonParseL))) ∧
    (∀ vs, parse_json_content content = .ok (.jsonL vs) →
      (∀ l ∈ (rustLines content).filter (fun l => !isBlankLine l), (jsonParseL l).isSome) ∧
      (rustLines content).filter (fun l => !isBlankLine l) ≠ [] ∧
      vs = ((rustLines content).filter (fun l => !isBlankLine l)).filterMap jsonParseL) ∧
    (¬((∀ l ∈ (rustLines content).filter (fun l => !isBlankLine l),
          (jsonParseL l).isSome) ∧
        (rustLines content).filter (fun l => !isBlankLine l) ≠ []) →
      (∀ v, jsonParse content = some v →
        parse_json_content content = .ok (.single v)) ∧
      (jsonParse content = none →
        parse_json_content content = .error (.invalidJson "invalid JSON"))) := by
  have hpos : ∀ hall : (∀ l ∈ (rustLines content).filter (fun l => !isBlankLine l),
      (jsonParseL l).isSome),
      (rustLines content).filter (fun l => !isBlankLine l) ≠ [] →
      parse_json_content content =
        .ok (.jsonL
          (((rustLines content).filter (fun l => !isBlankLine l)).filterMap jsonParseL)) := by
    intro hall hne
    have hcol : jsonlCollect (rustLines content) [] =
        ((rustLines content).filter (fun l => !isBlankLine l)).filterMap jsonParseL := by
      rw [jsonlCollect_success _ [] ?hall2]
      · simp
      case hall2 =>
        intro l hl hbl
        exact hall l (List.mem_filter.mpr ⟨hl, by simp [hbl]⟩)
    have hlen : (((rustLines content).filter (fun l => !isBlankLine l)).filterMap
        jsonParseL).length =
        ((rustLines content).filter (fun l => !isBlankLine l)).length :=
      filterMap_length_all_isSome _ _ hall
    have hnonempty : (((rustLines content).filter (fun l => !isBlankLine l)).filterMap
        jsonParseL).isEmpty = false := by
      cases hc : ((rustLines content).filter (fun l => !isBlankLine l)).filterMap jsonParseL with
      | nil =>
        exfalso
        rw [hc] at hlen
        simp at hlen
        exact hne (List.length_eq_zero.mp hlen.symm)
      | cons a l => simp
    simp only [parse_json_content, if_pos h, hcol, hnonempty]
    simp
  refine ⟨fun hc => hpos hc.1 hc.2, ?_, ?_⟩
  · intro vs hvs
    by_cases hcond : (∀ l ∈ (rustLines content).filter (fun l => !isBlankLine l),
        (jsonParseL l).isSome) ∧
        (rustLines content).filter (fun l => !isBlankLine l) ≠ []
    · have := hpos hcond.1 hcond.2
      rw [this] at hvs
      refine ⟨hcond.1, hcond.2, ?_⟩
      injection hvs with hvs'
      injection hvs' with hvs''
      exact hvs''.symm
    · exfalso
      have hother := parse_json_content_otherwise content h hcond
      rw [hother] at hvs
      unfold parseSingleJson at hvs
      cases hj : jsonParse content with
      | some v => rw [hj] at hvs; exact Except.noConfusion hvs (fun hh => ParseResult.noConfusion hh)
      | none => rw [hj] at hvs; exact Except.noConfusion hvs
  · intro hncond
    have hother := parse_json_content_otherwise content h hncond
    constructor
    · intro v hv
      rw [hother]
      unfold parseSingleJson
      rw [hv]
    · intro hv
      rw [hother]
      unfold parseSingleJson
      rw [hv]

theorem c1_jsonl_detection_witness :
    parse_json_content "\x7b\"a\":1\x7d\n\x7b\"b\":2\x7d" =
      .ok (.jsonL [.obj [("a", .num 1)], .obj [("b", .num 2)]]) := by
  have h := (c1_jsonl_detection "\x7b\"a\":1\x7d\n\x7b\"b\":2\x7d" (by decide)).1
    ⟨by decide, by decide⟩
  exact h.trans (by rfl)

/-! ## Claim C4 -/

/-- C4: whenever the JSON/JSONL parse of the input fails,
`parse_text_content` returns exactly the YAML parser's result — `Single` on
YAML success, `InvalidYaml` on YAML failure — and the original
`InvalidJson` error is never returned. -/
theorem c4_yaml_fallback (content : String) (e : ParseError)
    (hfail : parse_json_content content = .error e) :
    parse_text_content content = parse_yaml_content content ∧
    ((∃ v, parse_text_content content = .ok (.single v)) ∨
      (∃ m, parse_text_content content = .error (.invalidYaml m))) ∧
    (∀ m, parse_text_content content ≠ .error (.invalidJson m)) := by
  have heq : parse_text_content content = parse_yaml_content content := by
    unfold parse_text_content
    rw [hfail]
  refine ⟨heq, ?_, ?_⟩
  · rw [heq]
    unfold parse_yaml_content
    cases hy : yamlParse content with
    | ok v => exact Or.inl ⟨v, rfl⟩
    | error m => exact Or.inr ⟨m, rfl⟩
  · intro m
    rw [heq]
    unfold parse_yaml_content
    cases hy : yamlParse content with
    | ok v => simp
    | error msg =>
      intro hcon
      injection hcon with h
      exact ParseError.noConfusion h

theorem c4_yaml_fallback_witness :
    parse_text_content "a: 1\n" = parse_yaml_content "a: 1\n" ∧
    parse_text_content "a: 1\n" = .ok (.single (.obj [("a", .num 1)])) :=
  ⟨(c4_yaml_fallback "a: 1\n" (.invalidJson "invalid JSON") (by rfl)).1, by rfl⟩

/-! ## Claim C2: path helpers -/

theorem from_value_path (n p : String) (v : Json) : (TreeNode.from_value n p v).path = p := by
  cases v <;> simp [TreeNode.from_value, TreeNode.path]

theorem allPaths_from_value_obj (n p : String) (kvs : List (String × Json)) :
    (TreeNode.from_value n p (.obj kvs)).allPaths =
      p :: TreeNode.allPathsList (TreeNode.objChildren p kvs) := rfl

theorem allPaths_from_value_arr (n p : String) (xs : List Json) :
    (TreeNode.from_value n p (.arr xs)).allPaths =
      p :: TreeNode.allPathsList (TreeNode.arrChildren p 0 xs) := rfl

theorem allPathsList_cons (t : TreeNode) (ts : List TreeNode) :
    TreeNode.allPathsList (t :: ts) = t.allPaths ++ TreeNode.allPathsList ts := rfl

theorem obj_path_data (p k : String) :
    (build_object_path p k).data = p.data ++ '.' :: k.data := by
  simp [build_object_path, String.data_append]

theorem arr_path_data (p : String) (i : Nat) :
    (build_array_path p i).data = p.data ++ '[' :: (natRepr i ++ [']']) := by
  simp [build_array_path, String.data_append]

theorem keyOkB_chars {k : String} (h : keyOkB k = true) :
    ∀ c ∈ k.data, ¬(c = '.' ∨ c = '[') := by
  intro c hc
  have := (List.all_eq_true.mp h) c hc
  simp at this
  tauto

theorem childExt_suffix {v : Json} {pd qd : List Char} (h : childExt v pd qd) :
    ∃ e, qd = pd ++ e ∧ extOk e ∧ e ≠ [] := by
  cases v with
  | obj kvs =>
    obtain ⟨k, val, e, _, heq, _⟩ := h
    refine ⟨'.' :: k.data ++ e, ?_, Or.inl rfl, by simp⟩
    rw [heq]
    simp [List.append_assoc]
  | arr xs =>
    obtain ⟨i, e, _, heq, _⟩ := h
    exact ⟨'[' :: (natRepr i ++ ']' :: e), heq, Or.inr rfl, by simp⟩
  | null => exact absurd h (by simp [childExt])
  | bool b => exact absurd h (by simp [childExt])
  | num n => exact absurd h (by simp [childExt])
  | str s => exact absurd h (by simp [childExt])

mutual

theorem pathShape : ∀ (v : Json) (n p q : String),
    q ∈ (TreeNode.from_value n p v).allPaths → q.data = p.data ∨ childExt v p.data q.data
  | .null, n, p, q => by
    intro hq
    simp only [TreeNode.from_value, TreeNode.allPaths, TreeNode.allPathsList,
      List.mem_singleton] at hq
    exact Or.inl (by rw [hq])
  | .bool b, n, p, q => by
    intro hq
    simp only [TreeNode.from_value, TreeNode.allPaths, TreeNode.allPathsList,
      List.mem_singleton] at hq
    exact Or.inl (by rw [hq])
  | .num m, n, p, q => by
    intro hq
    simp only [TreeNode.from_value, TreeNode.allPaths, TreeNode.allPathsList,
      List.mem_singleton] at hq
    exact Or.inl (by rw [hq])
  | .str s, n, p, q => by
    intro hq
    simp only [TreeNode.from_value, TreeNode.allPaths, TreeNode.allPathsList,
      List.mem_singleton] at hq
    exact Or.inl (by rw [hq])
  | .arr xs, n, p, q => by
    intro hq
    rw [allPaths_from_value_arr, List.mem_cons] at hq
    rcases hq with rfl | hq
    · exact Or.inl rfl
    · right
      obtain ⟨j, e, hj0, hjlt, heq, hext⟩ := pathShapeArr xs p 0 q hq
      exact ⟨j, e, by omega, heq, hext⟩
  | .obj kvs, n, p, q => by
    intro hq
    rw [allPaths_from_value_obj, List.mem_cons] at hq
    rcases hq with rfl | hq
    · exact Or.inl rfl
    · exact Or.inr (pathShapeObj kvs p q hq)

theorem pathShapeObj : ∀ (kvs : List (String × Json)) (p q : String),
    q ∈ TreeNode.allPathsList (TreeNode.objChildren p kvs) →
    ∃ k val e, (k, val) ∈ kvs ∧ q.data = p.data ++ '.' :: k.data ++ e ∧ extOk e
  | [], p, q => by
    intro hq
    simp [TreeNode.objChildren, TreeNode.allPathsList] at hq
  | (k, val) :: kvs, p, q => by
    intro hq
    rw [TreeNode.objChildren, allPathsList_cons, List.mem_append] at hq
    rcases hq with hq | hq
    · rcases pathShape val k (build_object_path p k) q hq with hroot | hchild
      · refine ⟨k, val, [], by simp, ?_, trivial⟩
        rw [hroot, obj_path_data]
        simp
      · obtain ⟨e, he, hext, _⟩ := childExt_suffix hchild
        refine ⟨k, val, e, by simp, ?_, hext⟩
        rw [he, obj_path_data]
    · obtain ⟨k2, val2, e, hmem, heq, hext⟩ := pathShapeObj kvs p q hq
      exact ⟨k2, val2, e, by simp [hmem], heq, hext⟩

theorem pathShapeArr : ∀ (xs : List Json) (p : String) (i0 : Nat) (q : String),
    q ∈ TreeNode.allPathsList (TreeNode.arrChildren p i0 xs) →
    ∃ j e, i0 ≤ j ∧ j < i0 + xs.length ∧
      q.data = p.data ++ '[' :: (natRepr j ++ ']' :: e) ∧ extOk e
  | [], p, i0, q => by
    intro hq
    simp [TreeNode.arrChildren, TreeNode.allPathsList] at hq
  | x :: xs, p, i0, q => by
    intro hq
    rw [TreeNode.arrChildren, allPathsList_cons, List.mem_append] at hq
    rcases hq with hq | hq
    · rcases pathShape x (String.mk ('[' :: natRepr i0 ++ [']'])) (build_array_path p i0) q hq
        with hroot | hchild
      · refine ⟨i0, [], le_refl i0, by simp, ?_, trivial⟩
        rw [hroot, arr_path_data]
      · obtain ⟨e, he, hext, _⟩ := childExt_suffix hchild
        refine ⟨i0, e, le_refl i0, by simp, ?_, hext⟩
        rw [he, arr_path_data]
        simp [List.append_assoc]
    · obtain ⟨j, e, hj0, hjlt, heq, hext⟩ := pathShapeArr xs p (i0 + 1) q hq
      refine ⟨j, e, by omega, by simp only [List.length_cons]; omega, heq, hext⟩

end

theorem subtree_ext {v : Json} {n p q : String}
    (hq : q ∈ (TreeNode.from_value n p v).allPaths) :
    ∃ e, q.data = p.data ++ e ∧ extOk e := by
  rcases pathShape v n p q hq with h | h
  · exact ⟨[], by simp [h], trivial⟩
  · obtain ⟨e, he, hext, _⟩ := childExt_suffix h
    exact ⟨e, he, hext⟩

theorem ne_of_data_ext {p q : String} {e : List Char}
    (h : q.data = p.data ++ e) (hne : e ≠ []) : q ≠ p := by
  intro heq
  rw [heq] at h
  have := congrArg List.length h
  simp [List.length_append] at this
  exact hne this

theorem keysOkKVs_mem : ∀ {kvs : List (String × Json)} {kv : String × Json},
    Json.keysOkKVs kvs = true → kv ∈ kvs → keyOkB kv.1 = true ∧ kv.2.keysOk = true := by
  intro kvs
  induction kvs with
  | nil =>
    intro kv _ hmem
    simp at hmem
  | cons hd tl ih =>
    intro kv hok hmem
    rw [Json.keysOkKVs, Bool.and_eq_true, Bool.and_eq_true] at hok
    rcases List.mem_cons.mp hmem with rfl | hmem'
    · exact ⟨hok.1.1, hok.1.2⟩
    · exact ih hok.2 hmem'

theorem keysOkList_mem : ∀ {xs : List Json} {x : Json},
    Json.keysOkList xs = true → x ∈ xs → x.keysOk = true := by
  intro xs
  induction xs with
  | nil =>
    intro x _ hmem
    simp at hmem
  | cons hd tl ih =>
    intro x hok hmem
    rw [Json.keysOkList, Bool.and_eq_true] at hok
    rcases List.mem_cons.mp hmem with rfl | hmem'
    · exact hok.1
    · exact ih hok.2 hmem'

theorem key_seg_inj {pd : List Char} {k k2 : String} {e1 e2 : List Char}
    (hok : keyOkB k = true) (hok2 : keyOkB k2 = true)
    (hext1 : extOk e1) (hext2 : extOk e2)
    (h : pd ++ '.' :: k.data ++ e1 = pd ++ '.' :: k2.data ++ e2) : k = k2 := by
  have h0 := h
  rw [List.append_assoc, List.append_assoc] at h0
  have h1 := List.append_cancel_left h0
  rw [List.cons_append, List.cons_append] at h1
  have h'' : k.data ++ e1 = k2.data ++ e2 := by
    injection h1
  exact String.ext (nokey_append_cancel (keyOkB_chars hok) (keyOkB_chars hok2) hext1 hext2 h'')

theorem idx_seg_inj {pd : List Char} {i j : Nat} {e1 e2 : List Char}
    (h : pd ++ '[' :: (natRepr i ++ ']' :: e1) = pd ++ '[' :: (natRepr j ++ ']' :: e2)) :
    i = j := by
  have h' : natRepr i ++ ']' :: e1 = natRepr j ++ ']' :: e2 := by
    have := List.append_cancel_left h
    injection this
  exact natRepr_inj
    (digits_append_cancel (by decide) (natRepr_digits) (natRepr_digits) h').1

mutual

theorem pathNodup : ∀ (v : Json) (n p : String), v.keysOk = true →
    (TreeNode.from_value n p v).allPaths.Nodup
  | .null, n, p => by
    intro _
    simp [TreeNode.from_value, TreeNode.allPaths, TreeNode.allPathsList]
  | .bool b, n, p => by
    intro _
    simp [TreeNode.from_value, TreeNode.allPaths, TreeNode.allPathsList]
  | .num m, n, p => by
    intro _
    simp [TreeNode.from_value, TreeNode.allPaths, TreeNode.allPathsList]
  | .str s, n, p => by
    intro _
    simp [TreeNode.from_value, TreeNode.allPaths, TreeNode.allPathsList]
  | .arr xs, n, p => by
    intro hok
    rw [Json.keysOk] at hok
    rw [allPaths_from_value_arr, List.nodup_cons]
    constructor
    · intro hp
      obtain ⟨j, e, _, _, heq, _⟩ := pathShapeArr xs p 0 p hp
      exact ne_of_data_ext heq (by simp) rfl
    · exact pathNodupArr xs p 0 hok
  | .obj kvs, n, p => by
    intro hok
    rw [Json.keysOk, Bool.and_eq_true] at hok
    rw [allPaths_from_value_obj, List.nodup_cons]
    constructor
    · intro hp
      obtain ⟨k, val, e, _, heq, _⟩ := pathShapeObj kvs p p hp
      rw [List.append_assoc] at heq
      exact ne_of_data_ext heq (by simp) rfl
    · exact pathNodupObj kvs p hok.1 hok.2

theorem pathNodupObj : ∀ (kvs : List (String × Json)) (p : String),
    nodupKeys (kvs.map Prod.fst) = true → Json.keysOkKVs kvs = true →
    (TreeNode.allPathsList (TreeNode.objChildren p kvs)).Nodup
  | [], p => by
    intro _ _
    simp [TreeNode.objChildren, TreeNode.allPathsList]
  | (k, val) :: kvs, p => by
    intro hnd hkv
    rw [Json.keysOkKVs, Bool.and_eq_true, Bool.and_eq_true] at hkv
    rw [List.map_cons, nodupKeys, Bool.and_eq_true] at hnd
    rw [TreeNode.objChildren, allPathsList_cons]
    refine List.Nodup.append ?_ ?_ ?_
    · exact pathNodup val k (build_object_path p k) hkv.1.2
    · exact pathNodupObj kvs p hnd.2 hkv.2
    · intro q hq1 hq2
      obtain ⟨e1, he1, hext1⟩ := subtree_ext hq1
      rw [obj_path_data] at he1
      obtain ⟨k2, val2, e2, hmem2, he2, hext2⟩ := pathShapeObj kvs p q hq2
      have hkk : k = k2 :=
        key_seg_inj hkv.1.1 (keysOkKVs_mem hkv.2 hmem2).1 hext1 hext2 (he1.symm.trans he2)
      have hk2mem : k ∈ kvs.map Prod.fst := by
        rw [hkk]
        exact List.mem_map_of_mem _ hmem2
      have hcont : (kvs.map Prod.fst).contains k = true := List.elem_iff.mpr hk2mem
      have hncont := hnd.1
      rw [hcont] at hncont
      exact Bool.noConfusion hncont

theorem pathNodupArr : ∀ (xs : List Json) (p : String) (i0 : Nat),
    Json.keysOkList xs = true →
    (TreeNode.allPathsList (TreeNode.arrChildren p i0 xs)).Nodup
  | [], p, i0 => by
    intro _
    simp [TreeNode.arrChildren, TreeNode.allPathsList]
  | x :: xs, p, i0 => by
    intro hok
    rw [Json.keysOkList, Bool.and_eq_true] at hok
    rw [TreeNode.arrChildren, allPathsList_cons]
    refine List.Nodup.append ?_ ?_ ?_
    · exact pathNodup x _ (build_array_path p i0) hok.1
    · exact pathNodupArr xs p (i0 + 1) hok.2
    · intro q hq1 hq2
      obtain ⟨e1, he1, hext1⟩ := subtree_ext hq1
      rw [arr_path_data] at he1
      obtain ⟨j, e2, hj0, _, he2, hext2⟩ := pathShapeArr xs p (i0 + 1) q hq2
      have he1' : q.data = p.data ++ '[' :: (natRepr i0 ++ ']' :: e1) := by
        rw [he1]
        simp [List.append_assoc]
      have : i0 = j := idx_seg_inj (he1'.symm.trans he2)
      omega

end

theorem jsonlShape : ∀ (vs : List Json) (root : String) (i0 : Nat) (q : String),
    q ∈ TreeNode.allPathsList (TreeNode.jsonlChildren root i0 vs) →
    ∃ j e, i0 ≤ j ∧ q.data = root.data ++ '[' :: (natRepr j ++ ']' :: e) ∧ extOk e := by
  intro vs
  induction vs with
  | nil =>
    intro root i0 q hq
    simp [TreeNode.jsonlChildren, TreeNode.allPathsList] at hq
  | cons x xs ih =>
    intro root i0 q hq
    rw [TreeNode.jsonlChildren, allPathsList_cons, List.mem_append] at hq
    rcases hq with hq | hq
    · obtain ⟨e1, he1, hext1⟩ := subtree_ext hq
      rw [arr_path_data] at he1
      refine ⟨i0, e1, le_refl _, ?_, hext1⟩
      rw [he1]
      simp [List.append_assoc]
    · obtain ⟨j, e, hj, heq, hext⟩ := ih root (i0 + 1) q hq
      exact ⟨j, e, by omega, heq, hext⟩

theorem jsonlNodup : ∀ (vs : List Json) (root : String) (i0 : Nat),
    Json.keysOkList vs = true →
    (TreeNode.allPathsList (TreeNode.jsonlChildren root i0 vs)).Nodup := by
  intro vs
  induction vs with
  | nil =>
    intro root i0 _
    simp [TreeNode.jsonlChildren, TreeNode.allPathsList]
  | cons x xs ih =>
    intro root i0 hok
    rw [Json.keysOkList, Bool.and_eq_true] at hok
    rw [TreeNode.jsonlChildren, allPathsList_cons]
    refine List.Nodup.append (pathNodup x _ (build_array_path root i0) hok.1)
      (ih root (i0 + 1) hok.2) ?_
    intro q hq1 hq2
    obtain ⟨e1, he1, hext1⟩ := subtree_ext hq1
    rw [arr_path_data] at he1
    obtain ⟨j, e2, hj0, he2, hext2⟩ := jsonlShape xs root (i0 + 1) q hq2
    have he1' : q.data = root.data ++ '[' :: (natRepr i0 ++ ']' :: e1) := by
      rw [he1]
      simp [List.append_assoc]
    have : i0 = j := idx_seg_inj (he1'.symm.trans he2)
    omega

/-! ## Claim C2: the claim itself -/

/-- C2 is refuted as stated: object keys may contain the path-delimiter
characters, and then two distinct nodes of one parse share a path.  In the
document `{"a.b":1,"a":{"b":2}}` the top-level entry `"a.b"` and the nested
entry `"b"` of `"a"` both receive the path `$.a.b`. -/
theorem c2_path_uniqueness_counterexample :
    ¬ (build_tree_from_parse_result
        (.single (.obj [("a.b", .num 1), ("a", .obj [("b", .num 2)])]))
        "test.json").allPaths.Nodup := by decide

/-- C2 (amended): for every ParseResult whose objects carry pairwise
distinct keys containing neither `.` nor `[`, the path strings of the tree
returned by `build_tree_from_parse_result` are pairwise distinct — no two
distinct nodes of one parse share a path. -/
theorem c2_path_uniqueness (r : ParseResult) (display_name : String)
    (h : r.keysOk = true) :
    (build_tree_from_parse_result r display_name).allPaths.Nodup := by
  cases r with
  | single v => exact pathNodup v display_name "$" h
  | jsonL vs =>
    have hshape : (build_tree_from_parse_result (.jsonL vs) display_name).allPaths =
        display_name ::
          TreeNode.allPathsList (TreeNode.jsonlChildren display_name 0 vs) := rfl
    rw [hshape, List.nodup_cons]
    constructor
    · intro hp
      obtain ⟨j, e, _, heq, _⟩ := jsonlShape vs display_name 0 display_name hp
      exact ne_of_data_ext heq (by simp) rfl
    · exact jsonlNodup vs display_name 0 h

theorem c2_path_uniqueness_witness :
    ParseResult.keysOk
      (.single (.obj [("a", .num 1), ("b", .arr [.null, .obj [("c", .num 2)]])])) = true ∧
    (build_tree_from_parse_result
      (.single (.obj [("a", .num 1), ("b", .arr [.null, .obj [("c", .num 2)]])]))
      "f.json").allPaths.Nodup :=
  ⟨by decide, c2_path_uniqueness _ "f.json" (by decide)⟩

/-! ## Claim C6: whitespace, digits, and string-literal round trips -/

theorem string_eta (s : String) : String.mk s.data = s := by
  cases s
  rfl

theorem skipWs_cons_nws {c : Char} (cs : List Char) (h : isJsonWs c = false) :
    skipWs (c :: cs) = c :: cs := by
  simp [skipWs, h]

theorem skipWs_ws_prefix : ∀ (ws : List Char), (∀ c ∈ ws, isJsonWs c = true) →
    ∀ cs, skipWs (ws ++ cs) = skipWs cs := by
  intro ws
  induction ws with
  | nil => intro _ cs; rfl
  | cons w ws ih =>
    intro h cs
    rw [List.cons_append, skipWs, if_pos (h w (by simp))]
    exact ih (fun c hc => h c (by simp [hc])) cs

theorem ppIndent_ws (p : Bool) (i : Nat) : ∀ c ∈ ppIndent p i, isJsonWs c = true := by
  intro c hc
  cases p with
  | false => simp [ppIndent] at hc
  | true =>
    simp [ppIndent, List.mem_replicate] at hc
    rcases hc with rfl | ⟨-, rfl⟩ <;> rfl

theorem skipWs_ppIndent (p : Bool) (i : Nat) (cs : List Char) :
    skipWs (ppIndent p i ++ cs) = skipWs cs :=
  skipWs_ws_prefix _ (ppIndent_ws p i) cs

theorem isDigit_not_ws {c : Char} (hc : c.isDigit = true) : isJsonWs c = false := by
  simp [Char.isDigit] at hc
  simp [isJsonWs]
  refine ⟨⟨⟨?_, ?_⟩, ?_⟩, ?_⟩ <;> (rintro rfl; revert hc; decide)

theorem digitChar_not_delim {m : Nat} (hm : m < 10) :
    Nat.digitChar m ≠ '\x7b' ∧ Nat.digitChar m ≠ '[' ∧ Nat.digitChar m ≠ '"' ∧
    Nat.digitChar m ≠ 'n' ∧ Nat.digitChar m ≠ 't' ∧ Nat.digitChar m ≠ 'f' ∧
    Nat.digitChar m ≠ '-' ∧ Nat.digitChar m ≠ ']' ∧ Nat.digitChar m ≠ '\x7d' ∧
    Nat.digitChar m ≠ ',' ∧ Nat.digitChar m ≠ ':' := by
  interval_cases m <;> exact (by decide)

theorem natRepr_head : ∀ n : Nat, ∃ m cs, m < 10 ∧ natRepr n = Nat.digitChar m :: cs ∧
    (0 < n → m ≠ 0) := by
  intro n
  induction n using Nat.strong_induction_on with
  | _ n ih =>
    by_cases h : n < 10
    · refine ⟨n, [], h, ?_, ?_⟩
      · rw [natRepr_eq, if_pos h]
      · intro hn
        omega
    · have hd : n / 10 < n := Nat.div_lt_self (by omega) (by omega)
      obtain ⟨m, cs, hm, hcs, hz⟩ := ih (n / 10) hd
      refine ⟨m, cs ++ [Nat.digitChar (n % 10)], hm, ?_, fun _ => hz (by omega)⟩
      rw [natRepr_eq, if_neg h, hcs]
      rfl

theorem hexVal_digitChar {k : Nat} (hk : k < 16) : hexVal (Nat.digitChar k) = some k := by
  interval_cases k <;> exact (by decide)

theorem digitChar_val {k : Nat} (hk : k < 10) : (Nat.digitChar k).toNat - 48 = k := by
  interval_cases k <;> exact (by decide)

theorem digitsToNat_append (a : List Char) (d : Char) :
    digitsToNat (a ++ [d]) = digitsToNat a * 10 + (d.toNat - 48) := by
  simp [digitsToNat, List.foldl_append]

theorem digitsToNat_natRepr : ∀ n : Nat, digitsToNat (natRepr n) = n := by
  intro n
  induction n using Nat.strong_induction_on with
  | _ n ih =>
    rw [natRepr_eq]
    by_cases h : n < 10
    · rw [if_pos h]
      have := digitChar_val h
      simp [digitsToNat]
      omega
    · have hd : n / 10 < n := Nat.div_lt_self (by omega) (by omega)
      rw [if_neg h, digitsToNat_append, ih (n / 10) hd, digitChar_val (Nat.mod_lt _ (by omega))]
      omega

theorem takeWhile_digits : ∀ (ds rest : List Char), (∀ c ∈ ds, c.isDigit = true) →
    (∀ c, rest.head? = some c → c.isDigit = false) →
    (ds ++ rest).takeWhile Char.isDigit = ds ∧ (ds ++ rest).dropWhile Char.isDigit = rest := by
  intro ds
  induction ds with
  | nil =>
    intro rest _ hrest
    cases rest with
    | nil => simp
    | cons r rs =>
      have := hrest r rfl
      simp [List.takeWhile_cons, List.dropWhile_cons, this]
  | cons d ds ih =>
    intro rest hds hrest
    have hd := hds d (by simp)
    obtain ⟨h1, h2⟩ := ih rest (fun c hc => hds c (by simp [hc])) hrest
    simp [List.takeWhile_cons, List.dropWhile_cons, hd, h1, h2]

theorem parseNat_natRepr (n : Nat) (rest : List Char)
    (hrest : ∀ c, rest.head? = some c → c.isDigit = false) :
    parseNat (natRepr n ++ rest) = some (n, rest) := by
  by_cases h0 : n = 0
  · subst h0
    have hz : natRepr 0 = ['0'] := by decide
    rw [hz]
    simp [parseNat]
  · obtain ⟨m, cs, hm, hhead, hz⟩ := natRepr_head n
    have hmne : m ≠ 0 := hz (by omega)
    have hdne : Nat.digitChar m ≠ '0' := by
      revert hmne
      interval_cases m <;> (intro h; first | exact absurd rfl h | decide)
    have hdig : (Nat.digitChar m).isDigit = true := digitChar_isDigit hm
    obtain ⟨htake, hdrop⟩ := takeWhile_digits (natRepr n) rest natRepr_digits hrest
    rw [hhead, List.cons_append, parseNat, if_neg hdne, if_pos hdig]
    rw [← List.cons_append, ← hhead, htake, hdrop, digitsToNat_natRepr]

theorem strBody_step (c : Char) (REST : List Char) :
    parseStrBody (escapeChar c ++ REST) =
      (parseStrBody REST).map (fun pr => (c :: pr.1, pr.2)) := by
  by_cases h1 : c = '"'
  · subst h1
    rw [show escapeChar '"' = ['\\', '"'] from by decide]
    cases hh : parseStrBody REST with
    | some pr => simp [parseStrBody, unescChar, hh]
    | none => simp [parseStrBody, unescChar, hh]
  · by_cases h2 : c = '\\'
    · subst h2
      rw [show escapeChar '\\' = ['\\', '\\'] from by decide]
      cases hh : parseStrBody REST with
      | some pr => simp [parseStrBody, unescChar, hh]
      | none => simp [parseStrBody, unescChar, hh]
    · by_cases h3 : c = '\x08'
      · subst h3
        rw [show escapeChar '\x08' = ['\\', 'b'] from by decide]
        cases hh : parseStrBody REST with
        | some pr => simp [parseStrBody, unescChar, hh]
        | none => simp [parseStrBody, unescChar, hh]
      · by_cases h4 : c = '\t'
        · subst h4
          rw [show escapeChar '\t' = ['\\', 't'] from by decide]
          cases hh : parseStrBody REST with
          | some pr => simp [parseStrBody, unescChar, hh]
          | none => simp [parseStrBody, unescChar, hh]
        · by_cases h5 : c = '\n'
          · subst h5
            rw [show escapeChar '\n' = ['\\', 'n'] from by decide]
            cases hh : parseStrBody REST with
            | some pr => simp [parseStrBody, unescChar, hh]
            | none => simp [parseStrBody, unescChar, hh]
          · by_cases h6 : c = '\x0c'
            · subst h6
              rw [show escapeChar '\x0c' = ['\\', 'f'] from by decide]
              cases hh : parseStrBody REST with
              | some pr => simp [parseStrBody, unescChar, hh]
              | none => simp [parseStrBody, unescChar, hh]
            · by_cases h7 : c = '\r'
              · subst h7
                rw [show escapeChar '\r' = ['\\', 'r'] from by decide]
                cases hh : parseStrBody REST with
                | some pr => simp [parseStrBody, unescChar, hh]
                | none => simp [parseStrBody, unescChar, hh]
              · by_cases h8 : c.toNat < 32
                · have hesc : escapeChar c =
                      ['\\', 'u', '0', '0', Nat.digitChar (c.toNat / 16),
                        Nat.digitChar (c.toNat % 16)] := by
                    unfold escapeChar
                    rw [if_neg h1, if_neg h2, if_neg h3, if_neg h4, if_neg h5, if_neg h6,
                      if_neg h7, if_pos h8]
                  rw [hesc]
                  have hx1 : hexVal (Nat.digitChar (c.toNat / 16)) = some (c.toNat / 16) :=
                    hexVal_digitChar (by omega)
                  have hx2 : hexVal (Nat.digitChar (c.toNat % 16)) = some (c.toNat % 16) :=
                    hexVal_digitChar (by omega)
                  cases hh : parseStrBody REST with
                  | some pr =>
                    simp [parseStrBody, hx1, hx2, hh,
                      show hexVal '0' = some 0 from by decide]
                    rw [show c.toNat / 16 * 16 + c.toNat % 16 = c.toNat from by omega,
                      Char.ofNat_toNat]
                  | none =>
                    simp [parseStrBody, hx1, hx2, hh,
                      show hexVal '0' = some 0 from by decide]
                · have hesc : escapeChar c = [c] := by
                    unfold escapeChar
                    rw [if_neg h1, if_neg h2, if_neg h3, if_neg h4, if_neg h5, if_neg h6,
                      if_neg h7, if_neg h8]
                  rw [hesc]
                  cases hh : parseStrBody REST with
                  | some pr =>
                    rw [List.cons_append, List.nil_append, parseStrBody.eq_def]
                    split <;> simp_all
                  | none =>
                    rw [List.cons_append, List.nil_append, parseStrBody.eq_def]
                    split <;> simp_all

theorem roundStrBody : ∀ (l rest : List Char),
    parseStrBody (escapeList l ++ '"' :: rest) = some (l, rest) := by
  intro l
  induction l with
  | nil =>
    intro rest
    simp [escapeList, parseStrBody]
  | cons c l ih =>
    intro rest
    rw [escapeList, List.append_assoc, strBody_step, ih rest]
    rfl

theorem jsize_pos : ∀ v : Json, 1 ≤ v.jsize := by
  intro v
  cases v <;> simp [Json.jsize]

theorem serVal_head (p : Bool) (ind : Nat) (v : Json) :
    ∃ c l, Json.serVal p ind v = c :: l ∧ isJsonWs c = false ∧ c ≠ ']' ∧ c ≠ '\x7d' := by
  cases v with
  | null => exact ⟨_, _, rfl, by decide⟩
  | bool b => cases b <;> exact ⟨_, _, rfl, by decide⟩
  | num i =>
    show ∃ c l, intRepr i = c :: l ∧ _
    unfold intRepr
    by_cases hi : i < 0
    · exact ⟨'-', _, by rw [if_pos hi], by decide⟩
    · obtain ⟨m, cs, hm, hcs, _⟩ := natRepr_head i.toNat
      obtain ⟨_, _, _, _, _, _, _, hne1, hne2, _, _⟩ := digitChar_not_delim hm
      exact ⟨Nat.digitChar m, cs, by rw [if_neg hi, hcs],
        isDigit_not_ws (digitChar_isDigit hm), hne1, hne2⟩
  | str s => exact ⟨_, _, rfl, by decide⟩
  | arr xs => cases xs <;> exact ⟨_, _, rfl, by decide⟩
  | obj kvs => cases kvs <;> exact ⟨_, _, rfl, by decide⟩

theorem serArrTail_head (p : Bool) (ind : Nat) (xs : List Json) :
    ∃ c l, Json.serArrTail p ind xs = c :: l ∧ c.isDigit = false := by
  cases xs with
  | nil =>
    cases p with
    | false => exact ⟨']', _, rfl, by decide⟩
    | true => exact ⟨'\n', _, rfl, by decide⟩
  | cons x xs => exact ⟨',', _, rfl, by decide⟩

theorem serObjTail_head (p : Bool) (ind : Nat) (kvs : List (String × Json)) :
    ∃ c l, Json.serObjTail p ind kvs = c :: l ∧ c.isDigit = false := by
  cases kvs with
  | nil =>
    cases p with
    | false => exact ⟨'\x7d', _, rfl, by decide⟩
    | true => exact ⟨'\n', _, rfl, by decide⟩
  | cons kv kvs => exact ⟨',', _, rfl, by decide⟩

theorem restOk_of_head {A B : List Char} {c0 : Char} {l : List Char}
    (hA : A = c0 :: l) (hc0 : c0.isDigit = false) :
    ∀ c, (A ++ B).head? = some c → c.isDigit = false := by
  intro c hc
  rw [hA] at hc
  simp at hc
  rw [← hc]
  exact hc0

theorem skipWs_idem : ∀ cs, skipWs (skipWs cs) = skipWs cs := by
  intro cs
  induction cs with
  | nil => rfl
  | cons c cs ih =>
    by_cases h : isJsonWs c
    · rw [skipWs, if_pos h, ih]
    · have hf : isJsonWs c = false := by simpa using h
      rw [skipWs_cons_nws cs hf, skipWs_cons_nws cs hf]

theorem parseVal_skip : ∀ (fuel : Nat) (cs : List Char),
    parseVal fuel cs = parseVal fuel (skipWs cs) := by
  intro fuel cs
  cases fuel with
  | zero => rfl
  | succ f =>
    show (match skipWs cs with | _ => _ : Option (Json × List Char)) = _
    simp only [parseVal, skipWs_idem]

theorem parseVal_ws (fuel : Nat) (ws cs : List Char) (hws : ∀ c ∈ ws, isJsonWs c = true) :
    parseVal fuel (ws ++ cs) = parseVal fuel cs := by
  rw [parseVal_skip fuel (ws ++ cs), skipWs_ws_prefix ws hws, ← parseVal_skip]

theorem parseVal_lbrace (fuel : Nat) (T : List Char) :
    parseVal (fuel+1) ('\x7b' :: T) =
      (match skipWs T with
       | [] => none
       | c2 :: rest2 =>
         if c2 = '\x7d' then some (.obj [], rest2)
         else parseMembers fuel (c2 :: rest2) []) := rfl

theorem parseVal_lbrack (fuel : Nat) (T : List Char) :
    parseVal (fuel+1) ('[' :: T) =
      (match skipWs T with
       | [] => none
       | c2 :: rest2 =>
         if c2 = ']' then some (.arr [], rest2)
         else parseElems fuel (c2 :: rest2) []) := rfl

theorem parseVal_quote (fuel : Nat) (T : List Char) :
    parseVal (fuel+1) ('"' :: T) =
      (match parseStrBody T with
       | some (body, rest') => some (.str (String.mk body), rest')
       | none => none) := rfl

theorem parseVal_minus (fuel : Nat) (T : List Char) :
    parseVal (fuel+1) ('-' :: T) =
      (match parseNat T with
       | some (n, rest') => some (.num (-(n : Int)), rest')
       | none => none) := rfl

theorem parseVal_other (fuel : Nat) (c : Char) (T : List Char)
    (h1 : ¬ c = '\x7b') (h2 : ¬ c = '[') (h3 : ¬ c = '"') (h4 : ¬ c = 'n')
    (h5 : ¬ c = 't') (h6 : ¬ c = 'f') (h7 : ¬ c = '-') (hws : isJsonWs c = false) :
    parseVal (fuel+1) (c :: T) =
      (match parseNat (c :: T) with
       | some (n, rest') => some (.num ((n : Int)), rest')
       | none => none) := by
  simp only [parseVal]
  rw [skipWs_cons_nws _ hws]
  split
  · rename_i habs
    exact absurd habs (by simp)
  · rename_i c2 rest2 heq
    injection heq with hc ht
    subst hc
    subst ht
    rw [if_neg h1, if_neg h2, if_neg h3, if_neg h4, if_neg h5, if_neg h6, if_neg h7]

theorem parseElems_succ (fuel : Nat) (cs : List Char) (acc : List Json) :
    parseElems (fuel+1) cs acc =
      (match parseVal fuel cs with
       | some (v, rest) =>
         match skipWs rest with
         | [] => none
         | c :: rest' =>
           if c = ',' then parseElems fuel rest' (acc ++ [v])
           else if c = ']' then some (.arr (acc ++ [v]), rest')
           else none
       | none => none) := rfl

theorem parseMembers_quote (fuel : Nat) (T : List Char) (acc : List (String × Json)) :
    parseMembers (fuel+1) ('"' :: T) acc =
      (match parseStrBody T with
       | some (body, rest1) =>
         match skipWs rest1 with
         | [] => none
         | c2 :: rest2 =>
           if c2 = ':' then
             match parseVal fuel rest2 with
             | some (v, rest3) =>
               match skipWs rest3 with
               | [] => none
               | c4 :: rest4 =>
                 if c4 = ',' then
                   parseMembers fuel (skipWs rest4) (acc ++ [(String.mk body, v)])
                 else if c4 = '\x7d' then
                   some (.obj (acc ++ [(String.mk body, v)]), rest4)
                 else none
             | none => none
           else none
       | none => none) := rfl

mutual

theorem roundVal : ∀ (fuel : Nat) (p : Bool) (ind : Nat) (v : Json) (rest : List Char),
    v.jsize < fuel → (∀ c, rest.head? = some c → c.isDigit = false) →
    parseVal fuel (Json.serVal p ind v ++ rest) = some (v, rest)
  | 0, p, ind, v, rest => by
    intro hsz _
    exact absurd hsz (by have := jsize_pos v; omega)
  | fuel+1, p, ind, .null, rest => by
    intro _ _
    rfl
  | fuel+1, p, ind, .bool b, rest => by
    intro _ _
    cases b <;> rfl
  | fuel+1, p, ind, .num i, rest => by
    intro _ hrest
    show parseVal (fuel+1) (intRepr i ++ rest) = _
    unfold intRepr
    by_cases hi : i < 0
    · rw [if_pos hi, List.cons_append, parseVal_minus, parseNat_natRepr _ _ hrest]
      show some (Json.num (-((i.natAbs : Nat) : Int)), rest) = some (Json.num i, rest)
      rw [show -((i.natAbs : Nat) : Int) = i from by omega]
    · rw [if_neg hi]
      obtain ⟨m, cs, hm, hcs, _⟩ := natRepr_head i.toNat
      obtain ⟨d1, d2, d3, d4, d5, d6, d7, _, _, _, _⟩ := digitChar_not_delim hm
      rw [hcs, List.cons_append,
        parseVal_other fuel _ _ d1 d2 d3 d4 d5 d6 d7
          (isDigit_not_ws (digitChar_isDigit hm)),
        ← List.cons_append, ← hcs, parseNat_natRepr _ _ hrest]
      show some (Json.num ((i.toNat : Nat) : Int), rest) = some (Json.num i, rest)
      rw [show ((i.toNat : Nat) : Int) = i from by omega]
  | fuel+1, p, ind, .str s, rest => by
    intro _ _
    show parseVal (fuel+1) (strLit s ++ rest) = _
    rw [strLit]
    rw [show ('"' :: escapeList s.data ++ ['"']) ++ rest =
      '"' :: (escapeList s.data ++ '"' :: rest) from by simp]
    rw [parseVal_quote, roundStrBody]
  | fuel+1, p, ind, .arr [], rest => by
    intro _ _
    rfl
  | fuel+1, p, ind, .arr (x :: xs), rest => by
    intro hsz hrest
    show parseVal (fuel+1)
      (('[' :: (ppIndent p (ind+2) ++ Json.serVal p (ind+2) x) ++ Json.serArrTail p ind xs)
        ++ rest) = _
    rw [show ('[' :: (ppIndent p (ind+2) ++ Json.serVal p (ind+2) x) ++
        Json.serArrTail p ind xs) ++ rest =
      '[' :: (ppIndent p (ind+2) ++
        (Json.serVal p (ind+2) x ++ (Json.serArrTail p ind xs ++ rest))) from by simp]
    rw [parseVal_lbrack, skipWs_ppIndent]
    obtain ⟨c0, l0, hser, hc0ws, hc0rb, _⟩ := serVal_head p (ind+2) x
    rw [hser, List.cons_append, skipWs_cons_nws _ hc0ws]
    show (if c0 = ']' then some (Json.arr [], l0 ++ (Json.serArrTail p ind xs ++ rest))
      else parseElems fuel (c0 :: (l0 ++ (Json.serArrTail p ind xs ++ rest))) []) = _
    rw [if_neg hc0rb, ← List.cons_append, ← hser]
    have hsz' : 1 + x.jsize + Json.jsizeList xs < fuel := by
      simp only [Json.jsize, Json.jsizeList] at hsz
      omega
    have := roundElems fuel p ind [] x xs [] rest (by simp) hsz'
    rw [List.nil_append] at this
    rw [this]
    simp
  | fuel+1, p, ind, .obj [], rest => by
    intro _ _
    rfl
  | fuel+1, p, ind, .obj (kv :: kvs), rest => by
    intro hsz hrest
    show parseVal (fuel+1)
      (('\x7b' :: (ppIndent p (ind+2) ++
          (strLit kv.1 ++ colonSep p ++ Json.serVal p (ind+2) kv.2))
        ++ Json.serObjTail p ind kvs) ++ rest) = _
    rw [show ('\x7b' :: (ppIndent p (ind+2) ++
          (strLit kv.1 ++ colonSep p ++ Json.serVal p (ind+2) kv.2))
        ++ Json.serObjTail p ind kvs) ++ rest =
      '\x7b' :: (ppIndent p (ind+2) ++
        ('"' :: (escapeList kv.1.data ++ ('"' :: (colonSep p ++
          (Json.serVal p (ind+2) kv.2 ++ (Json.serObjTail p ind kvs ++ rest)))))))
        from by simp [strLit]]
    rw [parseVal_lbrace, skipWs_ppIndent, skipWs_cons_nws _ (by decide)]
    show (if ('"' : Char) = '\x7d' then
        some (Json.obj [], escapeList kv.1.data ++ ('"' :: (colonSep p ++
          (Json.serVal p (ind+2) kv.2 ++ (Json.serObjTail p ind kvs ++ rest)))))
      else parseMembers fuel ('"' :: (escapeList kv.1.data ++ ('"' :: (colonSep p ++
          (Json.serVal p (ind+2) kv.2 ++ (Json.serObjTail p ind kvs ++ rest)))))) []) = _
    rw [if_neg (by decide)]
    have hsz' : 1 + kv.2.jsize + Json.jsizeKVs kvs < fuel := by
      simp only [Json.jsize, Json.jsizeKVs] at hsz
      omega
    have := roundMembers fuel p ind kv.1 kv.2 kvs [] rest hsz'
    rw [List.nil_append] at this
    rw [this]

theorem roundElems : ∀ (fuel : Nat) (p : Bool) (ind : Nat) (ws : List Char) (x : Json)
    (xs : List Json) (acc : List Json) (rest : List Char),
    (∀ c ∈ ws, isJsonWs c = true) →
    1 + x.jsize + Json.jsizeList xs < fuel →
    parseElems fuel
      (ws ++ (Json.serVal p (ind+2) x ++ (Json.serArrTail p ind xs ++ rest))) acc =
      some (.arr (acc ++ (x :: xs)), rest)
  | 0, p, ind, ws, x, xs, acc, rest => by
    intro _ hsz
    exact absurd hsz (by omega)
  | fuel+1, p, ind, ws, x, xs, acc, rest => by
    intro hws hsz
    rw [parseElems_succ, parseVal_ws fuel ws _ hws]
    obtain ⟨ct, lt, htail, hct⟩ := serArrTail_head p ind xs
    rw [roundVal fuel p (ind+2) x _ (by omega) (restOk_of_head htail hct)]
    cases xs with
    | nil =>
      show (match skipWs (Json.serArrTail p ind [] ++ rest) with
        | [] => none
        | c :: rest' =>
          if c = ',' then parseElems fuel rest' (acc ++ [x])
          else if c = ']' then some (.arr (acc ++ [x]), rest')
          else none) = _
      rw [show Json.serArrTail p ind [] ++ rest = ppIndent p ind ++ (']' :: rest) from by
        rw [Json.serArrTail]; simp]
      rw [skipWs_ppIndent, skipWs_cons_nws _ (by decide)]
      simp
    | cons y ys =>
      show (match skipWs (Json.serArrTail p ind (y :: ys) ++ rest) with
        | [] => none
        | c :: rest' =>
          if c = ',' then parseElems fuel rest' (acc ++ [x])
          else if c = ']' then some (.arr (acc ++ [x]), rest')
          else none) = _
      rw [show Json.serArrTail p ind (y :: ys) ++ rest =
        ',' :: (ppIndent p (ind+2) ++
          (Json.serVal p (ind+2) y ++ (Json.serArrTail p ind ys ++ rest))) from by
        rw [Json.serArrTail]; simp]
      rw [skipWs_cons_nws _ (by decide)]
      show (if (',' : Char) = ',' then
          parseElems fuel (ppIndent p (ind+2) ++
            (Json.serVal p (ind+2) y ++ (Json.serArrTail p ind ys ++ rest))) (acc ++ [x])
        else _) = _
      rw [if_pos rfl]
      have hsz' : 1 + y.jsize + Json.jsizeList ys < fuel := by
        simp only [Json.jsizeList] at hsz
        have := jsize_pos x
        omega
      rw [roundElems fuel p ind (ppIndent p (ind+2)) y ys (acc ++ [x]) rest
        (ppIndent_ws p (ind+2)) hsz']
      simp

theorem roundMembers : ∀ (fuel : Nat) (p : Bool) (ind : Nat) (k : String) (val : Json)
    (kvs : List (String × Json)) (acc : List (String × Json)) (rest : List Char),
    1 + val.jsize + Json.jsizeKVs kvs < fuel →
    parseMembers fuel
      ('"' :: (escapeList k.data ++ ('"' :: (colonSep p ++
        (Json.serVal p (ind+2) val ++ (Json.serObjTail p ind kvs ++ rest)))))) acc =
      some (.obj (acc ++ ((k, val) :: kvs)), rest)
  | 0, p, ind, k, val, kvs, acc, rest => by
    intro hsz
    exact absurd hsz (by omega)
  | fuel+1, p, ind, k, val, kvs, acc, rest => by
    intro hsz
    rw [parseMembers_quote, roundStrBody]
    obtain ⟨ct, lt, htail, hct⟩ := serObjTail_head p ind kvs
    have hval := roundVal fuel p (ind+2) val (Json.serObjTail p ind kvs ++ rest)
      (by omega) (restOk_of_head htail hct)
    cases p with
    | false =>
      show (match skipWs ((colonSep false) ++
          (Json.serVal false (ind+2) val ++ (Json.serObjTail false ind kvs ++ rest))) with
        | [] => none
        | c2 :: rest2 =>
          if c2 = ':' then
            match parseVal fuel rest2 with
            | some (v, rest3) =>
              match skipWs rest3 with
              | [] => none
              | c4 :: rest4 =>
                if c4 = ',' then
                  parseMembers fuel (skipWs rest4) (acc ++ [(String.mk k.data, v)])
                else if c4 = '\x7d' then
                  some (.obj (acc ++ [(String.mk k.data, v)]), rest4)
                else none
            | none => none
          else none) = _
      rw [show (colonSep false) ++
          (Json.serVal false (ind+2) val ++ (Json.serObjTail false ind kvs ++ rest)) =
        ':' :: (Json.serVal false (ind+2) val ++ (Json.serObjTail false ind kvs ++ rest))
        from by simp [colonSep]]
      rw [skipWs_cons_nws _ (by decide)]
      show (if (':' : Char) = ':' then
          match parseVal fuel (Json.serVal false (ind+2) val ++
            (Json.serObjTail false ind kvs ++ rest)) with
          | some (v, rest3) =>
            match skipWs rest3 with
            | [] => none
            | c4 :: rest4 =>
              if c4 = ',' then
                parseMembers fuel (skipWs rest4) (acc ++ [(String.mk k.data, v)])
              else if c4 = '\x7d' then
                some (.obj (acc ++ [(String.mk k.data, v)]), rest4)
              else none
          | none => none
        else none) = _
      rw [if_pos rfl, hval, string_eta]
      exact roundMembersTail fuel false ind k val kvs acc rest hsz
    | true =>
      show (match skipWs ((colonSep true) ++
          (Json.serVal true (ind+2) val ++ (Json.serObjTail true ind kvs ++ rest))) with
        | [] => none
        | c2 :: rest2 =>
          if c2 = ':' then
            match parseVal fuel rest2 with
            | some (v, rest3) =>
              match skipWs rest3 with
              | [] => none
              | c4 :: rest4 =>
                if c4 = ',' then
                  parseMembers fuel (skipWs rest4) (acc ++ [(String.mk k.data, v)])
                else if c4 = '\x7d' then
                  some (.obj (acc ++ [(String.mk k.data, v)]), rest4)
                else none
            | none => none
          else none) = _
      rw [show (colonSep true) ++
          (Json.serVal true (ind+2) val ++ (Json.serObjTail true ind kvs ++ rest)) =
        ':' :: ([' '] ++ (Json.serVal true (ind+2) val ++
          (Json.serObjTail true ind kvs ++ rest)))
        from by simp [colonSep]]
      rw [skipWs_cons_nws _ (by decide)]
      show (if (':' : Char) = ':' then
          match parseVal fuel ([' '] ++ (Json.serVal true (ind+2) val ++
            (Json.serObjTail true ind kvs ++ rest))) with
          | some (v, rest3) =>
            match skipWs rest3 with
            | [] => none
            | c4 :: rest4 =>
              if c4 = ',' then
                parseMembers fuel (skipWs rest4) (acc ++ [(String.mk k.data, v)])
              else if c4 = '\x7d' then
                some (.obj (acc ++ [(String.mk k.data, v)]), rest4)
              else none
          | none => none
        else none) = _
      rw [if_pos rfl, parseVal_ws fuel [' '] _ (by decide), hval, string_eta]
      exact roundMembersTail fuel true ind k val kvs acc rest hsz

theorem roundMembersTail : ∀ (fuel : Nat) (p : Bool) (ind : Nat) (k : String) (val : Json)
    (kvs : List (String × Json)) (acc : List (String × Json)) (rest : List Char),
    1 + val.jsize + Json.jsizeKVs kvs < fuel + 1 →
    (match skipWs (Json.serObjTail p ind kvs ++ rest) with
      | [] => none
      | c4 :: rest4 =>
        if c4 = ',' then
          parseMembers fuel (skipWs rest4) (acc ++ [(k, val)])
        else if c4 = '\x7d' then
          some (Json.obj (acc ++ [(k, val)]), rest4)
        else none) = some (Json.obj (acc ++ ((k, val) :: kvs)), rest)
  | fuel, p, ind, k, val, [], acc, rest => by
    intro _
    rw [show Json.serObjTail p ind [] ++ rest = ppIndent p ind ++ ('\x7d' :: rest) from by
      rw [Json.serObjTail]; simp]
    rw [skipWs_ppIndent, skipWs_cons_nws _ (by decide)]
    simp
  | fuel, p, ind, k, val, kv2 :: kvs2, acc, rest => by
    intro hsz
    rw [show Json.serObjTail p ind (kv2 :: kvs2) ++ rest =
      ',' :: (ppIndent p (ind+2) ++
        ('"' :: (escapeList kv2.1.data ++ ('"' :: (colonSep p ++
          (Json.serVal p (ind+2) kv2.2 ++ (Json.serObjTail p ind kvs2 ++ rest)))))))
      from by rw [Json.serObjTail]; simp [strLit]]
    rw [skipWs_cons_nws _ (by decide)]
    show (if (',' : Char) = ',' then
        parseMembers fuel (skipWs (ppIndent p (ind+2) ++
          ('"' :: (escapeList kv2.1.data ++ ('"' :: (colonSep p ++
            (Json.serVal p (ind+2) kv2.2 ++ (Json.serObjTail p ind kvs2 ++ rest))))))))
          (acc ++ [(k, val)])
      else _) = _
    rw [if_pos rfl, skipWs_ppIndent, skipWs_cons_nws _ (by decide)]
    have hsz' : 1 + kv2.2.jsize + Json.jsizeKVs kvs2 < fuel := by
      simp only [Json.jsizeKVs] at hsz
      have := jsize_pos val
      omega
    rw [roundMembers fuel p ind kv2.1 kv2.2 kvs2 (acc ++ [(k, val)]) rest hsz']
    simp

end

theorem natRepr_len_pos (n : Nat) : 0 < (natRepr n).length := by
  cases h : natRepr n with
  | nil => exact absurd h (natRepr_ne_nil n)
  | cons c l => simp

mutual

theorem jsize_le_ser : ∀ (p : Bool) (ind : Nat) (v : Json),
    v.jsize ≤ (Json.serVal p ind v).length
  | p, ind, .null => by simp [Json.jsize, Json.serVal]
  | p, ind, .bool b => by cases b <;> simp [Json.jsize, Json.serVal]
  | p, ind, .num i => by
    show (Json.num i).jsize ≤ (intRepr i).length
    rw [Json.jsize]
    unfold intRepr
    split
    · simp
    · exact natRepr_len_pos i.toNat
  | p, ind, .str s => by simp [Json.jsize, Json.serVal, strLit]
  | p, ind, .arr [] => by simp [Json.jsize, Json.jsizeList, Json.serVal]
  | p, ind, .arr (x :: xs) => by
    have h1 := jsize_le_ser p (ind+2) x
    have h2 := jsizeList_le_tail p ind xs
    show (Json.arr (x :: xs)).jsize ≤
      (('[' :: (ppIndent p (ind+2) ++ Json.serVal p (ind+2) x)
        ++ Json.serArrTail p ind xs)).length
    rw [Json.jsize, Json.jsizeList]
    simp [List.length_append]
    omega
  | p, ind, .obj [] => by simp [Json.jsize, Json.jsizeKVs, Json.serVal]
  | p, ind, .obj (kv :: kvs) => by
    have h1 := jsize_le_ser p (ind+2) kv.2
    have h2 := jsizeKVs_le_tail p ind kvs
    show (Json.obj (kv :: kvs)).jsize ≤
      (('\x7b' :: (ppIndent p (ind+2) ++
          (strLit kv.1 ++ colonSep p ++ Json.serVal p (ind+2) kv.2))
        ++ Json.serObjTail p ind kvs)).length
    rw [Json.jsize, Json.jsizeKVs]
    simp [List.length_append, strLit]
    omega

theorem jsizeList_le_tail : ∀ (p : Bool) (ind : Nat) (xs : List Json),
    Json.jsizeList xs + 1 ≤ (Json.serArrTail p ind xs).length
  | p, ind, [] => by simp [Json.jsizeList, Json.serArrTail]
  | p, ind, x :: xs => by
    have h1 := jsize_le_ser p (ind+2) x
    have h2 := jsizeList_le_tail p ind xs
    rw [Json.jsizeList, Json.serArrTail]
    simp [List.length_append]
    omega

theorem jsizeKVs_le_tail : ∀ (p : Bool) (ind : Nat) (kvs : List (String × Json)),
    Json.jsizeKVs kvs + 1 ≤ (Json.serObjTail p ind kvs).length
  | p, ind, [] => by simp [Json.jsizeKVs, Json.serObjTail]
  | p, ind, kv :: kvs => by
    have h1 := jsize_le_ser p (ind+2) kv.2
    have h2 := jsizeKVs_le_tail p ind kvs
    rw [Json.jsizeKVs, Json.serObjTail]
    simp [List.length_append, strLit]
    omega

end

theorem jsonParse_ser (p : Bool) (v : Json) :
    jsonParse (String.mk (Json.serVal p 0 v)) = some v := by
  unfold jsonParse jsonParseL
  rw [show (String.mk (Json.serVal p 0 v)).data = Json.serVal p 0 v from rfl]
  have hlen := jsize_le_ser p 0 v
  have hr := roundVal (2 * (Json.serVal p 0 v).length + 2) p 0 v [] (by omega)
    (by intro c hc; simp at hc)
  rw [List.append_nil] at hr
  rw [hr]
  show (if skipWs ([] : List Char) = [] then some v else none) = some v
  simp [skipWs]

/-! ## Claim C6: the claim itself -/

/-- C6: every value survives the serialize/reparse round trip — reparsing
`serde_json::to_string(v)` yields `v` itself — and for every non-string
value, the output of `format_value_literal` (the pretty serialization)
reparses to a value equal to `v`, so one extra round trip is textually
stable. -/
theorem c6_serialize_reparse_stable (v : Json) :
    jsonParse (Json.toCompactString v) = some v ∧
    ((∀ s, v ≠ .str s) → jsonParse (format_value_literal v) = some v) := by
  constructor
  · exact jsonParse_ser false v
  · intro hns
    have hlit : format_value_literal v = String.mk (Json.serVal true 0 v) := by
      cases v with
      | str s2 => exact absurd rfl (hns s2)
      | null => rfl
      | bool b => rfl
      | num n => rfl
      | arr xs => rfl
      | obj kvs => rfl
    rw [hlit]
    exact jsonParse_ser true v

theorem c6_serialize_reparse_stable_witness :
    jsonParse (format_value_literal (.obj [("a", .num 1)])) =
      some (.obj [("a", .num 1)]) :=
  (c6_serialize_reparse_stable _).2 (fun _ h => Json.noConfusion h)
